import Mathlib

/-!
Verification development for the `so3` repository.

The repository contains three source files:

* a MATLAB file with `forward_for_dft` (fast forward spherical harmonic
  transform via factoring of rotations) and `inverse_direct` (brute-force
  inverse spherical harmonic transform);
* `so3_core.c` with `so3_core_mw_inverse_via_ssht` and
  `so3_core_mw_forward_via_ssht`, the Wigner-transform core on SO(3);
* `so3_forward_mex.c`, the MATLAB interface computing coefficient-vector
  sizes for the four storage layouts.

This file gives a shallow embedding of those functions over exact reals
(MATLAB/C `double` arithmetic is modelled by `ℝ`/`ℂ`; machine loops by
folds over explicit index lists) and proves properties of the embedding.
External collaborators (`ssht_sampling`, `ssht_dl`, the SSHT transform
engines and the FFTW primitive) are kept abstract as function parameters,
except where noted in a doc comment as modelled from the specification.
-/

namespace SO3Spec

/-- Integer list `a, a+1, ..., a+n-1` with `n` elements, the index sequence of a
counting loop of known length. -/
def intRangeN (a : ℤ) (n : ℕ) : List ℤ := (List.range n).map (fun k : ℕ => a + (k : ℤ))

/-- Integer list `a, a+1, ..., b` (empty when `b < a`), embedding MATLAB/C loops
`for i = a : b`. -/
def intRange (a b : ℤ) : List ℤ := intRangeN a (b + 1 - a).toNat

/-- Pointwise update of an integer-indexed array. -/
def upd1 (g : ℤ → ℂ) (i : ℤ) (v : ℂ) : ℤ → ℂ := fun x => if x = i then v else g x

/-- Fold applying a list of conditional array writes whose written values do not
depend on the array being filled; this embeds the write pattern of a loop nest
that fills an output array from already-computed data. -/
def writeFold {ι α : Type} (w : ι → α → Option ℂ) (l : List ι) (g0 : α → ℂ) : α → ℂ :=
  l.foldl (fun g i => fun x => (w i x).getD (g x)) g0

/-- Flattened index list of a two-level loop nest, outer loop `l1`, inner `l2`. -/
def loopPairs (l1 l2 : List ℤ) : List (ℤ × ℤ) := l1.flatMap (fun m => l2.map (fun t => (m, t)))

/-- Embedding of the triangular in-place rescaling loops of `so3_core.c`
(`for(el = e0; el < e0+len; ++el) for (; i < offset + 2*el+1; ++i) arr[base+i] *= factor(el)`
with `i = offset = 0` initially): state is the running index `i` and the
array. -/
def scaleFold (factor : ℕ → ℂ) (e0 len : ℕ) (base : ℤ) (st0 : ℤ × (ℤ → ℂ)) : ℤ × (ℤ → ℂ) :=
  ((List.range len).map (fun k : ℕ => e0 + k)).foldl
    (fun st el =>
      (List.range (2*el + 1)).foldl
        (fun s2 _ => (s2.1 + 1, upd1 s2.2 (base + s2.1) (s2.2 (base + s2.1) * factor el))) st)
    st0

/-- Degree whose block contains in-block offset `j` of a triangular layout
starting at degree `e0`: the `el` with `el^2 - e0^2 ≤ j < (el+1)^2 - e0^2`. -/
def degOf (e0 : ℕ) (j : ℤ) : ℕ := Nat.sqrt (j.toNat + e0^2)

/-- Position of the coefficient of degree `l` and order `m` in the unrolled
coefficient vector `[(0,0) (1,-1) (1,0) (1,1) (2,-2) ...]` (1-based, as in
MATLAB): the running index `lmi`/`lmindex` of the source equals this value
when the corresponding coefficient is visited. -/
def lmIndex (l : ℕ) (m : ℤ) : ℤ := (l : ℤ)^2 + l + m + 1

/-- The list of values taken by the output index `lmi` of step 5 of
`forward_for_dft` (equivalently `lmindex` of `inverse_direct`), in visit
order: degree-major, order `-l..l` inside degree `l`. -/
def lmiList (L : ℕ) : List ℤ :=
  (List.range L).flatMap (fun l => (intRange (-(l : ℤ)) l).map (lmIndex l))

noncomputable section

open Complex (I)

/-! ### Embedding of the MATLAB file (`forward_for_dft`, `inverse_direct`)

The sampling grid `[thetas, phis] = ssht_sampling(L)` and the Wigner-d
recursion engine `ssht_dl` are external collaborators of the repository; they
appear as abstract parameters `thetas`, `phis` (1-based coordinate arrays) and
`ssht_dl` (one recursion step: previous matrix, band-limit, degree, angle).
MATLAB matrices are embedded as total functions from (pairs of) integers,
1-based like the source; each loop nest is embedded as a fold over its exact
index list. -/

/-- Extended colatitude list `thetasExt = [thetas; 2*pi - thetas(end-1:-1:1)]`
of `forward_for_dft` (0-based list; entry `t` is MATLAB `thetasExt(t+1)`). -/
def thetasExtList (thetas : ℤ → ℝ) (L : ℕ) : List ℝ :=
  ((List.range L).map (fun t : ℕ => thetas ((t : ℤ) + 1))) ++
    ((List.range (L - 1)).map (fun k : ℕ => 2 * Real.pi - thetas ((L : ℤ) - 1 - k)))

/-- Step 1 inner sum of `forward_for_dft`: discrete Fourier analysis of the
`phi`-slice at colatitude index `t` and order `m`, normalized by `2L-1`. -/
def step1sum (phis : ℤ → ℝ) (L : ℕ) (f : ℤ → ℤ → ℂ) (m t : ℤ) : ℂ :=
  (∑ p ∈ Finset.Icc (1 : ℤ) (2*(L:ℤ) - 1),
      f (t + 1) p * Complex.exp (-I * (m : ℂ) * ((phis p : ℝ) : ℂ))) / (2*(L:ℂ) - 1)

/-- Write pattern of the steps 1–2 loop nest of `forward_for_dft`: iteration
`(m, t)` writes `fm(L+m, L+t)` and, when `t > 0`, `fm(L+m, L-t)`. -/
def fmWrite (phis : ℤ → ℝ) (L : ℕ) (f : ℤ → ℤ → ℂ) : (ℤ × ℤ) → (ℤ × ℤ) → Option ℂ :=
  fun mt ab =>
    if ab = ((L : ℤ) + mt.1, (L : ℤ) + mt.2) then some (step1sum phis L f mt.1 mt.2)
    else if 0 < mt.2 ∧ ab = ((L : ℤ) + mt.1, (L : ℤ) - mt.2) then
      some ((-1 : ℂ)^mt.1 * step1sum phis L f mt.1 mt.2)
    else none

/-- The matrix `fm` after the steps 1–2 loop nest (`for m=-L+1:L-1, for t=0:L-1`)
of `forward_for_dft`; unwritten cells keep their `zeros` initialization. -/
def fm (phis : ℤ → ℝ) (L : ℕ) (f : ℤ → ℤ → ℂ) : (ℤ × ℤ) → ℂ :=
  writeFold (fmWrite phis L f)
    (loopPairs (intRange (-(L:ℤ) + 1) ((L:ℤ) - 1)) (intRange 0 ((L:ℤ) - 1))) (fun _ => 0)

/-- Step 3 inner sum of `forward_for_dft`: Fourier analysis over the extended
colatitude domain (`for t=0:length(thetasExt)-1`), normalized by `2L-1`. -/
def step3sum (thetas phis : ℤ → ℝ) (L : ℕ) (f : ℤ → ℤ → ℂ) (m mp : ℤ) : ℂ :=
  (∑ t ∈ Finset.range (thetasExtList thetas L).length,
      fm phis L f ((L : ℤ) + m, (t : ℤ) + 1) *
        Complex.exp (-I * (mp : ℂ) * (((thetasExtList thetas L).getD t 0 : ℝ) : ℂ))) /
    (2*(L:ℂ) - 1)

/-- Write pattern of the step 3 loop nest: iteration `(m, mp)` writes
`fmm(L+m, L+mp)`. -/
def fmmWrite (thetas phis : ℤ → ℝ) (L : ℕ) (f : ℤ → ℤ → ℂ) : (ℤ × ℤ) → (ℤ × ℤ) → Option ℂ :=
  fun mmp ab =>
    if ab = ((L : ℤ) + mmp.1, (L : ℤ) + mmp.2) then some (step3sum thetas phis L f mmp.1 mmp.2)
    else none

/-- The matrix `fmm` after the step 3 loop nest of `forward_for_dft`. -/
def fmm (thetas phis : ℤ → ℝ) (L : ℕ) (f : ℤ → ℤ → ℂ) : (ℤ × ℤ) → ℂ :=
  writeFold (fmmWrite thetas phis L f)
    (loopPairs (intRange (-(L:ℤ) + 1) ((L:ℤ) - 1)) (intRange (-(L:ℤ) + 1) ((L:ℤ) - 1)))
    (fun _ => 0)

/-- The per-difference factor `w` computed inside the step 4 loop of
`forward_for_dft` (before the final multiplication of the sum by `2*pi`). -/
def wRaw (dm : ℤ) : ℂ :=
  if |dm| = 1 then I * (dm : ℂ) * (Real.pi : ℂ) / 2
  else if dm % 2 = 0 then 2 / (1 - (dm : ℂ)^2)
  else 0

/-- The full deconvolution weight of step 4 of `forward_for_dft`: `2*pi` times
the per-difference factor `w`. -/
def deconvWeight (dm : ℤ) : ℂ := 2 * (Real.pi : ℂ) * wRaw dm

/-- Step 4 inner sum of `forward_for_dft` (including the trailing `* 2*pi`). -/
def step4sum (thetas phis : ℤ → ℝ) (L : ℕ) (f : ℤ → ℤ → ℂ) (m mp : ℤ) : ℂ :=
  (∑ mpp ∈ Finset.Icc (-(L:ℤ) + 1) ((L:ℤ) - 1),
      fmm thetas phis L f ((L : ℤ) + m, (L : ℤ) + mpp) * wRaw (mpp - mp)) * 2 * (Real.pi : ℂ)

/-- Write pattern of the step 4 loop nest: iteration `(m, mp)` writes
`gmm(L+m, L+mp)`. -/
def gmmWrite (thetas phis : ℤ → ℝ) (L : ℕ) (f : ℤ → ℤ → ℂ) : (ℤ × ℤ) → (ℤ × ℤ) → Option ℂ :=
  fun mmp ab =>
    if ab = ((L : ℤ) + mmp.1, (L : ℤ) + mmp.2) then some (step4sum thetas phis L f mmp.1 mmp.2)
    else none

/-- The matrix `gmm` after the step 4 loop nest of `forward_for_dft`. -/
def gmm (thetas phis : ℤ → ℝ) (L : ℕ) (f : ℤ → ℤ → ℂ) : (ℤ × ℤ) → ℂ :=
  writeFold (gmmWrite thetas phis L f)
    (loopPairs (intRange (-(L:ℤ) + 1) ((L:ℤ) - 1)) (intRange (-(L:ℤ) + 1) ((L:ℤ) - 1)))
    (fun _ => 0)

/-- State of the Wigner-d recursion after advancing through degrees
`0, ..., l-1` starting from the `zeros(2L-1, 2L-1)` matrix: `dlState l` is the
matrix before processing degree `l`, and the matrix computed *for* degree `l`
is `dlState (l+1) = ssht_dl (dlState l) L l θ`. -/
def dlState (ssht_dl : (ℤ → ℤ → ℝ) → ℕ → ℕ → ℝ → (ℤ → ℤ → ℝ)) (L : ℕ) (θ : ℝ) :
    ℕ → (ℤ → ℤ → ℝ)
  | 0 => fun _ _ => 0
  | l + 1 => ssht_dl (dlState ssht_dl L θ l) L l θ

/-- The Wigner-d matrix used for degree `l`: the recursion advanced from degree
0 up to `l` (inclusive) at angle `θ`. -/
def dlAt (ssht_dl : (ℤ → ℤ → ℝ) → ℕ → ℕ → ℝ → (ℤ → ℤ → ℝ)) (L : ℕ) (θ : ℝ) (l : ℕ) :
    ℤ → ℤ → ℝ :=
  dlState ssht_dl L θ (l + 1)

/-- Summand value stored by step 5 of `forward_for_dft` at degree `l`, order
`m`: the `mp`-sum over Wigner-d entries and `gmm`, times `i^m * sqrt((2l+1)/4pi)`. -/
def flmVal (gmmA : (ℤ × ℤ) → ℂ) (L : ℕ) (dl : ℤ → ℤ → ℝ) (l : ℕ) (m : ℤ) : ℂ :=
  (∑ mp ∈ Finset.Icc (-(L:ℤ) + 1) ((L:ℤ) - 1),
      ((dl ((L : ℤ) + mp) ((L : ℤ) + m) : ℝ) : ℂ) * ((dl ((L : ℤ) + mp) (L : ℤ) : ℝ) : ℂ) *
        gmmA ((L : ℤ) + m, (L : ℤ) + mp))
    * I^m * ((Real.sqrt ((2*(l:ℝ) + 1) / (4*Real.pi)) : ℝ) : ℂ)

/-- One iteration of the step 5 degree loop of `forward_for_dft`: advance the
Wigner-d recursion to the current degree, then append the `2l+1` coefficients
of that degree at the running output index `lmi`. State: `(lmi, flm, dl)`. -/
def fwdStep5Body (ssht_dl : (ℤ → ℤ → ℝ) → ℕ → ℕ → ℝ → (ℤ → ℤ → ℝ))
    (gmmA : (ℤ × ℤ) → ℂ) (L : ℕ) (st : ℤ × (ℤ → ℂ) × (ℤ → ℤ → ℝ)) (l : ℕ) :
    ℤ × (ℤ → ℂ) × (ℤ → ℤ → ℝ) :=
  let dl := ssht_dl st.2.2 L l (Real.pi / 2)
  let inner := (intRange (-(l : ℤ)) l).foldl
    (fun s2 m => (s2.1 + 1, upd1 s2.2 s2.1 (flmVal gmmA L dl l m))) (st.1, st.2.1)
  (inner.1, inner.2, dl)

/-- The complete fast forward transform `forward_for_dft` of the MATLAB file:
steps 1–4 produce `gmm`, then the step 5 loop fills the coefficient vector
`flm` (1-based indices `1..L^2`). The size check on `f` performed by the
MATLAB front matter is a precondition here (`f` is total). -/
def forward_for_dft (thetas phis : ℤ → ℝ)
    (ssht_dl : (ℤ → ℤ → ℝ) → ℕ → ℕ → ℝ → (ℤ → ℤ → ℝ)) (L : ℕ) (f : ℤ → ℤ → ℂ) : ℤ → ℂ :=
  ((List.range L).foldl (fwdStep5Body ssht_dl (gmm thetas phis L f) L)
    (1, (fun _ => 0), fun _ _ => 0)).2.1

/-- Summand of `inverse_direct` at degree `l`, order `m`:
`flm(lmindex) * sqrt((2l+1)/(4pi)) * dl(m+L, L) * exp(i*m*phi)`; the argument
`c` is the running index `lmindex`. -/
def invVal (flm : ℤ → ℂ) (L : ℕ) (dl : ℤ → ℤ → ℝ) (l : ℕ) (φ : ℝ) (c m : ℤ) : ℂ :=
  flm c * ((Real.sqrt ((2*(l:ℝ) + 1) / (4*Real.pi)) : ℝ) : ℂ) *
    ((dl (m + L) (L : ℤ) : ℝ) : ℂ) * Complex.exp (I * (m : ℂ) * ((φ : ℝ) : ℂ))

/-- One iteration of the degree loop of `inverse_direct` at a fixed grid point:
advance the Wigner-d recursion, then accumulate the `2l+1` orders of degree `l`
into the running sum while incrementing `lmindex`. State: `(sum, lmindex, dl)`. -/
def invPointBody (ssht_dl : (ℤ → ℤ → ℝ) → ℕ → ℕ → ℝ → (ℤ → ℤ → ℝ))
    (flm : ℤ → ℂ) (L : ℕ) (θ φ : ℝ) (st : ℂ × ℤ × (ℤ → ℤ → ℝ)) (l : ℕ) :
    ℂ × ℤ × (ℤ → ℤ → ℝ) :=
  let dl := ssht_dl st.2.2 L l θ
  let inner := (intRange (-(l : ℤ)) l).foldl
    (fun s2 m => (s2.1 + invVal flm L dl l φ s2.2 m, s2.2 + 1)) (st.1, st.2.1)
  (inner.1, inner.2, dl)

/-- Value computed by `inverse_direct` at one grid point `(θ, φ)`: the full
degree/order double loop with its freshly zeroed Wigner-d recursion state. -/
def inversePoint (ssht_dl : (ℤ → ℤ → ℝ) → ℕ → ℕ → ℝ → (ℤ → ℤ → ℝ))
    (flm : ℤ → ℂ) (L : ℕ) (θ φ : ℝ) : ℂ × ℤ × (ℤ → ℤ → ℝ) :=
  (List.range L).foldl (invPointBody ssht_dl flm L θ φ) (0, 1, fun _ _ => 0)

/-- The brute-force inverse transform `inverse_direct` of the MATLAB file:
entry `(j, k)` of the output grid (`j = 1..L` colatitudes, `k = 1..2L-1`
longitudes); outside the grid the `zeros` initialization persists. The length
check on `flm` performed by the MATLAB front matter is a precondition here. -/
def inverse_direct (thetas phis : ℤ → ℝ)
    (ssht_dl : (ℤ → ℤ → ℝ) → ℕ → ℕ → ℝ → (ℤ → ℤ → ℝ)) (L : ℕ) (flm : ℤ → ℂ) :
    ℤ → ℤ → ℂ :=
  fun j k =>
    if 1 ≤ j ∧ j ≤ (L : ℤ) ∧ 1 ≤ k ∧ k ≤ 2*(L:ℤ) - 1 then
      (inversePoint ssht_dl flm L (thetas j) (phis k)).1
    else 0

end

/-- Valid 1-based index pair into a `(2L-1) x (2L-1)` MATLAB matrix
(`fm`, `fmm`, `gmm`, `dl` are all of this shape). -/
def matIdxOK (L : ℕ) (a b : ℤ) : Prop :=
  1 ≤ a ∧ a ≤ 2*(L:ℤ) - 1 ∧ 1 ≤ b ∧ b ≤ 2*(L:ℤ) - 1

/-- Valid 1-based index pair into the `L x (2L-1)` sample grid `f`. -/
def fIdxOK (L : ℕ) (a b : ℤ) : Prop :=
  1 ≤ a ∧ a ≤ (L:ℤ) ∧ 1 ≤ b ∧ b ≤ 2*(L:ℤ) - 1

/-- Bounds asserted by C10, with one index variable per access family of
`forward_for_dft` and `inverse_direct`:
`f(t+1, p)` and `fm(L+m, L+t)`/`fm(L+m, L-t)` from steps 1–2;
`fm(L+m, textt+1)` and `thetasExt(textt+1)` from step 3 (with the extended
colatitude list having exactly `2L-1` entries); `fmm`/`gmm` accesses at
`(L+m, L+mp)` and `(L+m, L+mpp)` from steps 3–4; `dl(L+mp, L+mq)` and
`dl(L+mp, L)` from step 5 and `dl(mq+L, L)` from `inverse_direct`; the
coefficient index `lmIndex l mq` within `1..L^2`; the output grid write
`f(j, k)` of `inverse_direct`; and the exact range `1..L^2` of the output
index sequence `lmi`. -/
def C10Prop (thetas : ℤ → ℝ) (L : ℕ) (m t p textt mp mpp : ℤ) (l : ℕ) (mq j k : ℤ) : Prop :=
  fIdxOK L (t + 1) p
  ∧ matIdxOK L ((L:ℤ) + m) ((L:ℤ) + t)
  ∧ (1 ≤ t → matIdxOK L ((L:ℤ) + m) ((L:ℤ) - t))
  ∧ matIdxOK L ((L:ℤ) + m) (textt + 1)
  ∧ textt.toNat < (thetasExtList thetas L).length
  ∧ (thetasExtList thetas L).length = 2*L - 1
  ∧ matIdxOK L ((L:ℤ) + m) ((L:ℤ) + mp)
  ∧ matIdxOK L ((L:ℤ) + m) ((L:ℤ) + mpp)
  ∧ matIdxOK L ((L:ℤ) + mp) ((L:ℤ) + mq)
  ∧ matIdxOK L ((L:ℤ) + mp) (L:ℤ)
  ∧ matIdxOK L (mq + (L:ℤ)) (L:ℤ)
  ∧ (1 ≤ lmIndex l mq ∧ lmIndex l mq ≤ (L:ℤ)^2)
  ∧ fIdxOK L j k
  ∧ lmiList L = intRange 1 ((L:ℤ)^2)

/-! ### Embedding of the MATLAB interface `so3_forward_mex.c` (sizes only)

Claim C9 concerns the coefficient-vector sizes computed at the public
interface (`so3_forward_mex.c`, lines 167–199). -/

/-- Coefficient-vector size computed by `so3_forward_mex.c` (lines 167–199):
dispatch on storage type (padded vs compact) and the reality flag, using C
integer division for the compact formulas. -/
def so3MexFlmnSize (L N : ℤ) (compactStorage reality : Bool) : ℤ :=
  if compactStorage = false then
    (if reality then N*L*L else (2*N - 1)*L*L)
  else
    (if reality then N*(6*L*L - (N-1)*(2*N-1))/6 else (2*N - 1)*(3*L*L - N*(N-1))/3)

/-! ### Embedding of `so3_core.c`

The SSHT transform engines (`ssht_core_mw_inverse_sov_sym`,
`ssht_core_mw_forward_sov_conv_sym`) are external collaborators, kept
abstract as the parameters `sshtInverse`/`sshtForward` (coefficient buffer or
sample slice, band-limit, pole order). The FFTW plans are the external Fourier
primitive, assumed exact, with the standard unnormalized batched-DFT
semantics (`dftBackward`/`dftForward` below). The event trace records the
transient-buffer allocations and the fatal storage error in program order;
`verbosity` printing is not modelled. -/

/-- Storage tag `SO3_STORE_ZERO_FIRST_PAD`. The C enumeration `so3_storage_t`
is modelled from the spec as integer tags (its header is not among the provided
sources); only distinctness of the four values matters, the `switch` treats any
other integer as invalid. -/
def SO3_STORE_ZERO_FIRST_PAD : ℤ := 0

/-- Storage tag `SO3_STORE_ZERO_FIRST_COMPACT` (modelled from the spec). -/
def SO3_STORE_ZERO_FIRST_COMPACT : ℤ := 1

/-- Storage tag `SO3_STORE_NEG_FIRST_PAD` (modelled from the spec). -/
def SO3_STORE_NEG_FIRST_PAD : ℤ := 2

/-- Storage tag `SO3_STORE_NEG_FIRST_COMPACT` (modelled from the spec). -/
def SO3_STORE_NEG_FIRST_COMPACT : ℤ := 3

/-- A storage tag handled by some case of the `switch` statements of
`so3_core.c`; every other tag falls into `default` (fatal error). -/
def so3ValidStorage (storage : ℤ) : Bool :=
  decide (storage = SO3_STORE_ZERO_FIRST_PAD ∨ storage = SO3_STORE_NEG_FIRST_PAD
    ∨ storage = SO3_STORE_ZERO_FIRST_COMPACT ∨ storage = SO3_STORE_NEG_FIRST_COMPACT)

/-- The two padded storage tags. -/
def so3PaddedStorage (storage : ℤ) : Bool :=
  storage == SO3_STORE_ZERO_FIRST_PAD || storage == SO3_STORE_NEG_FIRST_PAD

/-- The two compact storage tags. -/
def so3CompactStorage (storage : ℤ) : Bool :=
  storage == SO3_STORE_ZERO_FIRST_COMPACT || storage == SO3_STORE_NEG_FIRST_COMPACT

/-- Modelled from the spec: the flat-index map `so3_sampling_elmn2ind` of the
repository's sampling module, which is not among the provided sources. Spec
section 3: the n-dimension is ordered `0, 1, ..., N-1, -N+1, ..., -1`
(zero-first) or `-N+1, ..., N-1` (neg-first); padded layouts use stride `L^2`
per `n` and in-block offset `l^2 + l + m`; compact layouts allocate for each
`n` only the `L^2 - n^2` coefficients with `l ≥ |n|`, at in-block offset
`l^2 + l + m - n^2`, so a block starts at the sum of the sizes of all blocks
earlier in storage order. -/
def so3_sampling_elmn2ind (l : ℕ) (m n : ℤ) (L N : ℕ) (storage : ℤ) : ℤ :=
  if storage = SO3_STORE_ZERO_FIRST_PAD then
    (if n < 0 then n + 2*(N:ℤ) - 1 else n) * (L:ℤ)^2 + ((l:ℤ)^2 + l + m)
  else if storage = SO3_STORE_NEG_FIRST_PAD then
    (n + (N:ℤ) - 1) * (L:ℤ)^2 + ((l:ℤ)^2 + l + m)
  else if storage = SO3_STORE_ZERO_FIRST_COMPACT then
    (if 0 ≤ n then ∑ k ∈ Finset.Ico (0:ℤ) n, ((L:ℤ)^2 - k^2)
     else (∑ k ∈ Finset.Ico (0:ℤ) ((N:ℕ):ℤ), ((L:ℤ)^2 - k^2))
            + ∑ k ∈ Finset.Ico (-(N:ℤ) + 1) n, ((L:ℤ)^2 - k^2))
      + ((l:ℤ)^2 + l + m - n^2)
  else if storage = SO3_STORE_NEG_FIRST_COMPACT then
    (∑ k ∈ Finset.Ico (-(N:ℤ) + 1) n, ((L:ℤ)^2 - k^2)) + ((l:ℤ)^2 + l + m - n^2)
  else 0

/-- First flat index of the block of orientation frequency `n` under a compact
layout: the index of the coefficient `(l, m) = (|n|, -|n|)`, exactly the `ind`
computed by `so3_core.c` via `so3_sampling_elmn2ind(&ind, abs(n), -abs(n), n, ...)`. -/
def so3CompactBlockStart (n : ℤ) (L N : ℕ) (storage : ℤ) : ℤ :=
  so3_sampling_elmn2ind n.natAbs (-(n.natAbs : ℤ)) n L N storage

/-- Events observable in the embedded `so3_core.c` control flow: transient
buffer allocations and the fatal invalid-storage error. -/
inductive So3Event : Type
  | allocFn : So3Event
  | allocFlm : So3Event
  | allocFtemp : So3Event
  | errorInvalidStorage : So3Event
deriving DecidableEq, BEq

/-- Whether an event is a transient-buffer allocation. -/
def isAllocEvent : So3Event → Bool
  | So3Event.allocFn => true
  | So3Event.allocFlm => true
  | So3Event.allocFtemp => true
  | So3Event.errorInvalidStorage => false

/-- The failure discipline asserted by C8 on an event trace: the fatal storage
error is reported, and no transient-buffer allocation precedes it. -/
def failsBeforeAlloc (tr : List So3Event) : Bool :=
  tr.contains So3Event.errorInvalidStorage &&
    (tr.takeWhile (fun e => !(e == So3Event.errorInvalidStorage))).all
      (fun e => !(isAllocEvent e))

/-- The stride `fn_n_stride = L*(2L-1)` separating orientation rows of the
`fn` buffer (`so3_core.c` lines 70, 177). -/
def fn_n_stride (L : ℕ) : ℤ := (L:ℤ) * (2*(L:ℤ) - 1)

noncomputable section

open Complex (I)

/-- Batched backward Fourier transform across the orientation dimension: the
semantics of the FFTW plan of `so3_core_mw_inverse_via_ssht` (external
primitive, assumed exact): `fn_n_stride` transforms of length `2N-1`, stride
`fn_n_stride`, unnormalized, positive exponent. -/
def dftBackward (N : ℕ) (stride : ℤ) (fn : ℤ → ℂ) : ℤ → ℂ := fun x =>
  ∑ g ∈ Finset.range (2*N - 1),
    fn ((g:ℤ) * stride + x % stride) *
      Complex.exp (2 * (Real.pi:ℂ) * I * (g:ℂ) * (((x / stride : ℤ)):ℂ) / (2*(N:ℂ) - 1))

/-- Batched forward Fourier transform across the orientation dimension: the
semantics of the FFTW plan of `so3_core_mw_forward_via_ssht` (negative
exponent, unnormalized). -/
def dftForward (N : ℕ) (stride : ℤ) (f : ℤ → ℂ) : ℤ → ℂ := fun x =>
  ∑ g ∈ Finset.range (2*N - 1),
    f ((g:ℤ) * stride + x % stride) *
      Complex.exp (-(2 * (Real.pi:ℂ) * I) * (g:ℂ) * (((x / stride : ℤ)):ℂ) / (2*(N:ℂ) - 1))

/-- The per-`n` coefficient buffer `flm` of `so3_core_mw_inverse_via_ssht`
right after the storage `switch` (lines 97–113): padded layouts copy the full
`L^2` block starting at `elmn2ind(0,0,n)`; compact layouts zero the leading
`n^2` entries (`l < |n|`) and copy the `L^2 - n^2` entries with `l ≥ |n|`,
starting at `elmn2ind(|n|,-|n|,n)`, into positions `n^2` onward. Positions
outside `[0, L^2)` do not exist in the C buffer and are kept at zero. -/
def so3InvExtract (flmn : ℤ → ℂ) (L N : ℕ) (storage : ℤ) (n : ℤ) : ℤ → ℂ :=
  if so3PaddedStorage storage then
    fun i =>
      if 0 ≤ i ∧ i < (L:ℤ)^2 then flmn (so3_sampling_elmn2ind 0 0 n L N storage + i) else 0
  else
    fun i =>
      if 0 ≤ i ∧ i < n^2 then 0
      else if n^2 ≤ i ∧ i < (L:ℤ)^2 then
        flmn (so3CompactBlockStart n L N storage + (i - n^2))
      else 0

/-- The `flm` buffer after the rescaling loop of the inverse transform
(lines 115–123): the in-place triangular loop multiplying each degree-`l`
entry by `sqrt((2l+1)/(16*pi^3))`. -/
def so3InvScaled (flmn : ℤ → ℂ) (L N : ℕ) (storage : ℤ) (n : ℤ) : ℤ → ℂ :=
  (scaleFold (fun el => ((Real.sqrt ((2*(el:ℝ) + 1) / (16 * Real.pi^3)) : ℝ) : ℂ)) 0 L 0
    (0, so3InvExtract flmn L N storage n)).2

/-- Orientation row at which the slice for frequency `n` is stored
(line 127): `n` for `n ≥ 0`, `n + 2N - 1` for `n < 0`. -/
def so3off (N : ℕ) (n : ℤ) : ℤ := if n < 0 then n + 2*(N:ℤ) - 1 else n

/-- Values of the `n`-slice written into `fn` (lines 128–132): the SSHT
inverse engine applied to the scaled buffer with pole order `-n`, each value
negated when `n` is odd. -/
def so3InvSlice (sshtInverse : (ℤ → ℂ) → ℕ → ℤ → (ℤ → ℂ)) (flmn : ℤ → ℂ)
    (L N : ℕ) (storage : ℤ) (n : ℤ) : ℤ → ℂ :=
  fun i => (if n % 2 = 0 then 1 else -1) *
    sshtInverse (so3InvScaled flmn L N storage n) L (-n) i

/-- Write pattern of the inverse `n`-loop on the `fn` buffer: iteration `n`
writes the `fn_n_stride` cells of orientation row `so3off N n`. -/
def so3InvW (sshtInverse : (ℤ → ℂ) → ℕ → ℤ → (ℤ → ℂ)) (flmn : ℤ → ℂ)
    (L N : ℕ) (storage : ℤ) (n : ℤ) : ℤ → Option ℂ :=
  fun x =>
    if so3off N n * fn_n_stride L ≤ x ∧ x < (so3off N n + 1) * fn_n_stride L then
      some (so3InvSlice sshtInverse flmn L N storage n (x - so3off N n * fn_n_stride L))
    else none

/-- The `n`-loop of `so3_core_mw_inverse_via_ssht` (lines 93–136), threading
the event trace and the `fn` buffer. An invalid storage tag hits the `switch`
default in the first iteration and aborts (fatal error); the two allocations
(`fn`, line 72; `flm`, line 90) happen before the loop. -/
def so3InvLoop (sshtInverse : (ℤ → ℂ) → ℕ → ℤ → (ℤ → ℂ)) (flmn : ℤ → ℂ)
    (L N : ℕ) (storage : ℤ) : List So3Event × Option (ℤ → ℂ) :=
  (intRange (-(N:ℤ) + 1) ((N:ℤ) - 1)).foldl
    (fun st n =>
      match st.2 with
      | none => st
      | some arr =>
          if so3ValidStorage storage then
            (st.1, some (fun x => (so3InvW sshtInverse flmn L N storage n x).getD (arr x)))
          else (st.1 ++ [So3Event.errorInvalidStorage], none))
    ([So3Event.allocFn, So3Event.allocFlm], some (fun _ => 0))

/-- The `fn` buffer produced by a successful run of the inverse `n`-loop. -/
def so3InvFnArr (sshtInverse : (ℤ → ℂ) → ℕ → ℤ → (ℤ → ℂ)) (flmn : ℤ → ℂ)
    (L N : ℕ) (storage : ℤ) : ℤ → ℂ :=
  writeFold (so3InvW sshtInverse flmn L N storage)
    (intRange (-(N:ℤ) + 1) ((N:ℤ) - 1)) (fun _ => 0)

/-- Embedding of `so3_core_mw_inverse_via_ssht`: the event trace and the
output buffer `f`. After all slices, one batched backward Fourier transform of
length `2N-1` across the orientation dimension produces `f` (plan of lines
77–88, executed at line 140). On the error path the program aborts with no
output. -/
def so3_core_mw_inverse_via_ssht (sshtInverse : (ℤ → ℂ) → ℕ → ℤ → (ℤ → ℂ))
    (flmn : ℤ → ℂ) (L N : ℕ) (storage : ℤ) : List So3Event × (ℤ → ℂ) :=
  match so3InvLoop sshtInverse flmn L N storage with
  | (tr, some fn) => (tr, dftBackward N (fn_n_stride L) fn)
  | (tr, none) => (tr, fun _ => 0)

/-- The `fn` buffer of `so3_core_mw_forward_via_ssht` after the forward FFT
(lines 197–205) and the `2*pi/(2N-1)` scaling loop (lines 209–210); the loop
only touches the `(2N-1)*fn_n_stride` cells of the buffer. -/
def so3FwdFn (f : ℤ → ℂ) (L N : ℕ) : ℤ → ℂ := fun x =>
  if 0 ≤ x ∧ x < (2*(N:ℤ) - 1) * fn_n_stride L then
    dftForward N (fn_n_stride L) f x * (2 * (Real.pi:ℂ) / (2*(N:ℂ) - 1))
  else dftForward N (fn_n_stride L) f x

/-- The sign `(-1)^n` applied to the raw coefficients of slice `n` by the
forward transform (lines 219–222, 254). -/
def so3sign (n : ℤ) : ℂ := if n % 2 = 0 then 1 else -1

/-- Raw harmonic coefficients of slice `n`: the SSHT forward engine applied
with pole order `-n` to the orientation row `so3off N n` of the Fourier-scaled
sample buffer (lines 233, 240). -/
def so3FwdRaw (sshtForward : (ℤ → ℂ) → ℕ → ℤ → (ℤ → ℂ)) (f : ℤ → ℂ)
    (L N : ℕ) (n : ℤ) : ℤ → ℂ :=
  sshtForward (fun j => so3FwdFn f L N (so3off N n * fn_n_stride L + j)) L (-n)

/-- One iteration of the forward `n`-loop acting on the output vector `flmn`
(lines 228–257): write the raw coefficients of slice `n` into the block given
by the storage layout (full `L^2` block for padded storage; the `L^2 - n^2`
coefficients with `l ≥ |n|` for compact storage), then rescale the block in
place by `sign*sqrt(4*pi/(2l+1))` with the triangular index loop. -/
def so3FwdBody (sshtForward : (ℤ → ℂ) → ℕ → ℤ → (ℤ → ℂ)) (f : ℤ → ℂ)
    (L N : ℕ) (storage : ℤ) (n : ℤ) (arr : ℤ → ℂ) : ℤ → ℂ :=
  if so3PaddedStorage storage then
    (scaleFold (fun el => so3sign n * ((Real.sqrt (4*Real.pi / (2*(el:ℝ) + 1)) : ℝ) : ℂ)) 0 L
      (so3_sampling_elmn2ind 0 0 n L N storage)
      (0, fun x =>
        if so3_sampling_elmn2ind 0 0 n L N storage ≤ x ∧
            x < so3_sampling_elmn2ind 0 0 n L N storage + (L:ℤ)^2 then
          so3FwdRaw sshtForward f L N n (x - so3_sampling_elmn2ind 0 0 n L N storage)
        else arr x)).2
  else
    (scaleFold (fun el => so3sign n * ((Real.sqrt (4*Real.pi / (2*(el:ℝ) + 1)) : ℝ) : ℂ))
      n.natAbs (L - n.natAbs) (so3CompactBlockStart n L N storage)
      (0, fun x =>
        if so3CompactBlockStart n L N storage ≤ x ∧
            x < so3CompactBlockStart n L N storage + ((L:ℤ)^2 - n^2) then
          so3FwdRaw sshtForward f L N n (n^2 + (x - so3CompactBlockStart n L N storage))
        else arr x)).2

/-- Write pattern of one compact-storage iteration of the forward `n`-loop on
the output vector: the block `[blockStart, blockStart + (L^2 - n^2))`, with the
values the iteration computes (which do not depend on the previous contents of
the output vector). -/
def so3FwdW (sshtForward : (ℤ → ℂ) → ℕ → ℤ → (ℤ → ℂ)) (f : ℤ → ℂ)
    (L N : ℕ) (storage : ℤ) (n : ℤ) : ℤ → Option ℂ :=
  fun x =>
    if so3CompactBlockStart n L N storage ≤ x ∧
        x < so3CompactBlockStart n L N storage + ((L:ℤ)^2 - n^2) then
      some (so3FwdBody sshtForward f L N storage n (fun _ => 0) x)
    else none

/-- The `n`-loop of `so3_core_mw_forward_via_ssht` (lines 215–261). The
transient allocations `ftemp` (line 182) and `fn` (line 186) precede the loop,
as does the scratch `flm` allocation (lines 212–213) exactly when the storage
tag is one of the two compact layouts;
an invalid storage tag hits the `switch` default in the first iteration. -/
def so3FwdLoop (sshtForward : (ℤ → ℂ) → ℕ → ℤ → (ℤ → ℂ)) (f flmn0 : ℤ → ℂ)
    (L N : ℕ) (storage : ℤ) : List So3Event × Option (ℤ → ℂ) :=
  (intRange (-(N:ℤ) + 1) ((N:ℤ) - 1)).foldl
    (fun st n =>
      match st.2 with
      | none => st
      | some arr =>
          if so3ValidStorage storage then
            (st.1, some (so3FwdBody sshtForward f L N storage n arr))
          else (st.1 ++ [So3Event.errorInvalidStorage], none))
    ([So3Event.allocFtemp, So3Event.allocFn] ++
      (if so3CompactStorage storage then [So3Event.allocFlm] else []), some flmn0)

/-- Embedding of `so3_core_mw_forward_via_ssht`: the event trace and the
output coefficient vector `flmn` (initial contents `flmn0`, the caller's
buffer). On the error path the program aborts with no output. -/
def so3_core_mw_forward_via_ssht (sshtForward : (ℤ → ℂ) → ℕ → ℤ → (ℤ → ℂ))
    (flmn0 f : ℤ → ℂ) (L N : ℕ) (storage : ℤ) : List So3Event × (ℤ → ℂ) :=
  match so3FwdLoop sshtForward f flmn0 L N storage with
  | (tr, some arr) => (tr, arr)
  | (tr, none) => (tr, fun _ => 0)

end

theorem intRangeN_succ (a : ℤ) (n : ℕ) : intRangeN a (n + 1) = intRangeN a n ++ [a + n] := by
  simp [intRangeN, List.range_succ]

theorem mem_intRangeN {a x : ℤ} {n : ℕ} : x ∈ intRangeN a n ↔ a ≤ x ∧ x < a + n := by
  simp only [intRangeN, List.mem_map, List.mem_range]
  constructor
  · rintro ⟨k, hk, rfl⟩
    omega
  · intro h
    exact ⟨(x - a).toNat, by omega, by omega⟩

theorem mem_intRange {a b x : ℤ} : x ∈ intRange a b ↔ a ≤ x ∧ x ≤ b := by
  simp only [intRange, mem_intRangeN]
  omega

theorem intRange_eq (a b : ℤ) (n : ℕ) (h : b + 1 - a = n) : intRange a b = intRangeN a n := by
  simp [intRange, h]

theorem intRangeN_append (a : ℤ) (n m : ℕ) :
    intRangeN a (n + m) = intRangeN a n ++ intRangeN (a + n) m := by
  simp only [intRangeN, List.range_add, List.map_append, List.map_map]
  congr 1
  refine List.map_congr_left fun k _ => ?_
  simp only [Function.comp_apply]
  push_cast
  ring

theorem writeFold_cons {ι α : Type} (w : ι → α → Option ℂ) (i : ι) (l : List ι) (g0 : α → ℂ) :
    writeFold w (i :: l) g0 = writeFold w l (fun x => (w i x).getD (g0 x)) := rfl

theorem writeFold_untouched {ι α : Type} (w : ι → α → Option ℂ) (x : α) :
    ∀ (l : List ι), (∀ i ∈ l, w i x = none) → ∀ g0, writeFold w l g0 x = g0 x := by
  intro l
  induction l with
  | nil => intro _ g0; rfl
  | cons i t ih =>
      intro h g0
      rw [writeFold_cons, ih (fun j hj => h j (List.mem_cons_of_mem _ hj)),
        h i (List.mem_cons_self _ _)]
      rfl

theorem writeFold_write {ι α : Type} (w : ι → α → Option ℂ) (x : α) (v : ℂ) :
    ∀ (l : List ι), (∃ i ∈ l, (w i x).isSome) → (∀ i ∈ l, w i x = none ∨ w i x = some v) →
    ∀ g0, writeFold w l g0 x = v := by
  intro l
  induction l with
  | nil =>
      rintro ⟨i, hi, _⟩
      exact absurd hi (List.not_mem_nil i)
  | cons i t ih =>
      intro hsome hval g0
      rw [writeFold_cons]
      by_cases hex : ∃ j ∈ t, (w j x).isSome
      · exact ih hex (fun j hj => hval j (List.mem_cons_of_mem _ hj)) _
      · have hnone : ∀ j ∈ t, w j x = none := by
          intro j hj
          rcases hval j (List.mem_cons_of_mem _ hj) with h | h
          · exact h
          · exact absurd ⟨j, hj, by rw [h]; rfl⟩ hex
        rw [writeFold_untouched w x t hnone]
        rcases hval i (List.mem_cons_self _ _) with h | h
        · rcases hsome with ⟨j, hj, hjs⟩
          rcases List.mem_cons.mp hj with rfl | hjt
          · rw [h] at hjs
            exact absurd hjs (by simp)
          · exact absurd ⟨j, hjt, hjs⟩ hex
        · rw [h]
          rfl

theorem mem_loopPairs {l1 l2 : List ℤ} {p : ℤ × ℤ} :
    p ∈ loopPairs l1 l2 ↔ p.1 ∈ l1 ∧ p.2 ∈ l2 := by
  rcases p with ⟨m, t⟩
  simp only [loopPairs, List.mem_flatMap, List.mem_map, Prod.mk.injEq]
  constructor
  · rintro ⟨m1, hm1, t1, ht1, rfl, rfl⟩
    exact ⟨hm1, ht1⟩
  · rintro ⟨hm, ht⟩
    exact ⟨m, hm, t, ht, rfl, rfl⟩

/-- Characterization of a loop accumulating a sum while incrementing a counter,
the shape of the inner order loops of `inverse_direct`. -/
theorem foldl_sum_counter (F : ℤ → ℤ → ℂ) (a : ℤ) :
    ∀ (n : ℕ) (acc0 : ℂ) (c0 : ℤ),
      (intRangeN a n).foldl (fun st m => (st.1 + F st.2 m, st.2 + 1)) (acc0, c0)
        = (acc0 + ∑ k ∈ Finset.range n, F (c0 + k) (a + k), c0 + n) := by
  intro n
  induction n with
  | zero =>
      intro acc0 c0
      simp [intRangeN]
  | succ n ih =>
      intro acc0 c0
      rw [intRangeN_succ, List.foldl_append, ih]
      simp only [List.foldl_cons, List.foldl_nil, Finset.sum_range_succ, Prod.mk.injEq]
      constructor
      · ring
      · push_cast
        ring

/-- Characterization of a loop writing consecutive array cells while incrementing
a counter, the shape of the coefficient-output loops of `forward_for_dft`. -/
theorem foldl_write_counter (V : ℤ → ℤ → ℂ) (a : ℤ) :
    ∀ (n : ℕ) (g0 : ℤ → ℂ) (c0 : ℤ),
      (intRangeN a n).foldl (fun st m => (st.1 + 1, upd1 st.2 st.1 (V st.1 m)))
          ((c0, g0) : ℤ × (ℤ → ℂ))
        = (c0 + n, fun x => if c0 ≤ x ∧ x < c0 + n then V x (a + (x - c0)) else g0 x) := by
  intro n
  induction n with
  | zero =>
      intro g0 c0
      simp only [intRangeN, List.range_zero, List.map_nil, List.foldl_nil, Nat.cast_zero,
        add_zero, Prod.mk.injEq, true_and]
      funext x
      have h : ¬ (c0 ≤ x ∧ x < c0) := by omega
      simp [h]
  | succ n ih =>
      intro g0 c0
      rw [intRangeN_succ, List.foldl_append, ih]
      simp only [List.foldl_cons, List.foldl_nil, Prod.mk.injEq]
      constructor
      · push_cast
        ring
      · funext x
        simp only [upd1]
        by_cases hx : x = c0 + n
        · subst hx
          have h1 : c0 ≤ c0 + (n:ℤ) ∧ c0 + (n:ℤ) < c0 + ((n:ℕ)+1:ℕ) := by
            constructor <;> push_cast <;> omega
          rw [if_pos rfl, if_pos h1]
          congr 1
          omega
        · rw [if_neg hx]
          by_cases h2 : c0 ≤ x ∧ x < c0 + n
          · have h3 : c0 ≤ x ∧ x < c0 + ((n:ℕ)+1:ℕ) := by push_cast; omega
            rw [if_pos h2, if_pos h3]
          · have h3 : ¬ (c0 ≤ x ∧ x < c0 + ((n:ℕ)+1:ℕ)) := by push_cast at h2 ⊢; omega
            rw [if_neg h2, if_neg h3]

/-- Characterization of an inner scaling loop multiplying `n` consecutive cells
in place while advancing the running index. -/
theorem foldl_scale_range (c : ℂ) (base : ℤ) :
    ∀ (n : ℕ) (i0 : ℤ) (g : ℤ → ℂ),
      (List.range n).foldl
          (fun s2 _ => (s2.1 + 1, upd1 s2.2 (base + s2.1) (s2.2 (base + s2.1) * c)))
          ((i0, g) : ℤ × (ℤ → ℂ))
        = (i0 + n, fun x => if base + i0 ≤ x ∧ x < base + i0 + n then g x * c else g x) := by
  intro n
  induction n with
  | zero =>
      intro i0 g
      simp only [List.range_zero, List.foldl_nil, Nat.cast_zero, add_zero, Prod.mk.injEq, true_and]
      funext x
      have h : ¬ (base + i0 ≤ x ∧ x < base + i0) := by omega
      simp [h]
  | succ n ih =>
      intro i0 g
      rw [List.range_succ, List.foldl_append, ih]
      simp only [List.foldl_cons, List.foldl_nil, Prod.mk.injEq]
      constructor
      · push_cast
        ring
      · funext x
        simp only [upd1]
        by_cases hx : x = base + (i0 + n)
        · have hout : ¬ (base + i0 ≤ base + (i0 + (n:ℤ)) ∧ base + (i0 + (n:ℤ)) < base + i0 + n) := by
            omega
          have hin : base + i0 ≤ x ∧ x < base + i0 + ((n:ℕ)+1:ℕ) := by
            subst hx
            constructor <;> push_cast <;> omega
          subst hx
          rw [if_pos rfl, if_neg hout, if_pos hin]
        · rw [if_neg hx]
          by_cases h2 : base + i0 ≤ x ∧ x < base + i0 + n
          · have h3 : base + i0 ≤ x ∧ x < base + i0 + ((n:ℕ)+1:ℕ) := by push_cast; omega
            rw [if_pos h2, if_pos h3]
          · have h3 : ¬ (base + i0 ≤ x ∧ x < base + i0 + ((n:ℕ)+1:ℕ)) := by
              push_cast at h2 ⊢
              omega
            rw [if_neg h2, if_neg h3]

theorem degOf_eq (e0 el : ℕ) (j : ℤ) (he : e0 ≤ el)
    (h1 : (el:ℤ)^2 - (e0:ℤ)^2 ≤ j) (h2 : j < ((el:ℤ) + 1)^2 - (e0:ℤ)^2) :
    degOf e0 j = el := by
  have he2 : (e0:ℤ)^2 ≤ (el:ℤ)^2 :=
    pow_le_pow_left₀ (by positivity) (by exact_mod_cast he) 2
  have hj0 : 0 ≤ j := by linarith
  have hcast : ((j.toNat + e0^2 : ℕ) : ℤ) = j + (e0:ℤ)^2 := by
    push_cast
    rw [Int.toNat_of_nonneg hj0]
  have hlow : el^2 ≤ j.toNat + e0^2 := by
    have hz : ((el^2 : ℕ) : ℤ) ≤ ((j.toNat + e0^2 : ℕ) : ℤ) := by
      rw [hcast]
      push_cast
      linarith
    exact_mod_cast hz
  have hhigh : j.toNat + e0^2 < (el + 1)^2 := by
    have hz : ((j.toNat + e0^2 : ℕ) : ℤ) < (((el + 1)^2 : ℕ) : ℤ) := by
      rw [hcast]
      push_cast
      linarith
    exact_mod_cast hz
  have hle : el ≤ Nat.sqrt (j.toNat + e0^2) := Nat.le_sqrt'.mpr hlow
  have hlt : Nat.sqrt (j.toNat + e0^2) < el + 1 := Nat.sqrt_lt'.mpr hhigh
  rw [degOf]
  omega

theorem scaleFold_eq (factor : ℕ → ℂ) (e0 : ℕ) (base : ℤ) :
    ∀ (len : ℕ) (g : ℤ → ℂ),
      scaleFold factor e0 len base (0, g)
        = (((e0 + len : ℕ):ℤ)^2 - ((e0:ℕ):ℤ)^2,
           fun x =>
             if base ≤ x ∧ x < base + (((e0 + len : ℕ):ℤ)^2 - ((e0:ℕ):ℤ)^2) then
               g x * factor (degOf e0 (x - base))
             else g x) := by
  intro len
  induction len with
  | zero =>
      intro g
      simp only [scaleFold, List.range_zero, List.map_nil, List.foldl_nil, Nat.add_zero]
      rw [Prod.mk.injEq]
      refine ⟨by ring, ?_⟩
      funext x
      have hno : ¬ (base ≤ x ∧ x < base + (((e0:ℕ):ℤ)^2 - ((e0:ℕ):ℤ)^2)) := by
        intro hc
        have := hc.1
        have := hc.2
        omega
      rw [if_neg hno]
  | succ len ih =>
      intro g
      have hlist : (List.range (len + 1)).map (fun k : ℕ => e0 + k)
          = (List.range len).map (fun k : ℕ => e0 + k) ++ [e0 + len] := by
        rw [List.range_succ, List.map_append, List.map_cons, List.map_nil]
      have hsplit : scaleFold factor e0 (len + 1) base (0, g)
          = (List.range (2*(e0 + len) + 1)).foldl
              (fun s2 _ => (s2.1 + 1, upd1 s2.2 (base + s2.1) (s2.2 (base + s2.1) * factor (e0 + len))))
              (scaleFold factor e0 len base (0, g)) := by
        rw [scaleFold, hlist, List.foldl_append]
        rfl
      rw [hsplit, ih]
      rw [foldl_scale_range]
      have hA : ((e0 + len : ℕ):ℤ)^2 - ((e0:ℕ):ℤ)^2 + ((2*(e0 + len) + 1 : ℕ):ℤ)
          = ((e0 + (len + 1) : ℕ):ℤ)^2 - ((e0:ℕ):ℤ)^2 := by
        push_cast
        ring
      have hBle : ((e0:ℕ):ℤ)^2 ≤ ((e0 + len : ℕ):ℤ)^2 :=
        pow_le_pow_left₀ (by positivity) (by push_cast; omega) 2
      have hAC : ((e0 + len : ℕ):ℤ)^2 ≤ ((e0 + (len + 1) : ℕ):ℤ)^2 :=
        pow_le_pow_left₀ (by positivity) (by push_cast; omega) 2
      rw [Prod.mk.injEq]
      refine ⟨hA, ?_⟩
      funext x
      by_cases hnew : base + (((e0 + len : ℕ):ℤ)^2 - ((e0:ℕ):ℤ)^2) ≤ x ∧
          x < base + (((e0 + len : ℕ):ℤ)^2 - ((e0:ℕ):ℤ)^2) + ((2*(e0 + len) + 1 : ℕ):ℤ)
      · rw [if_pos hnew]
        have hold : ¬ (base ≤ x ∧ x < base + (((e0 + len : ℕ):ℤ)^2 - ((e0:ℕ):ℤ)^2)) := by
          intro hc
          exact absurd hnew.1 (by omega)
        rw [if_neg hold]
        have hin : base ≤ x ∧ x < base + (((e0 + (len + 1) : ℕ):ℤ)^2 - ((e0:ℕ):ℤ)^2) := by
          constructor
          · have := hnew.1
            omega
          · have := hnew.2
            omega
        rw [if_pos hin]
        have hdeg : degOf e0 (x - base) = e0 + len := by
          refine degOf_eq e0 (e0 + len) (x - base) (by omega) ?_ ?_
          · have h1 := hnew.1
            have hc : ((e0 + len : ℕ):ℤ) = (e0:ℤ) + len := by push_cast; ring
            rw [hc] at h1
            push_cast
            linarith
          · have h2 := hnew.2
            have hc : ((e0 + len : ℕ):ℤ) = (e0:ℤ) + len := by push_cast; ring
            have hc2 : ((2*(e0 + len) + 1 : ℕ):ℤ) = 2*((e0:ℤ) + len) + 1 := by push_cast; ring
            rw [hc] at h2
            rw [hc2] at h2
            push_cast
            linarith
        rw [hdeg]
      · rw [if_neg hnew]
        by_cases hold : base ≤ x ∧ x < base + (((e0 + len : ℕ):ℤ)^2 - ((e0:ℕ):ℤ)^2)
        · rw [if_pos hold]
          have hin : base ≤ x ∧ x < base + (((e0 + (len + 1) : ℕ):ℤ)^2 - ((e0:ℕ):ℤ)^2) := by
            constructor
            · exact hold.1
            · have := hold.2
              omega
          rw [if_pos hin]
        · rw [if_neg hold]
          have hno : ¬ (base ≤ x ∧ x < base + (((e0 + (len + 1) : ℕ):ℤ)^2 - ((e0:ℕ):ℤ)^2)) := by
            intro hc
            have h1 := hc.1
            have h2 := hc.2
            have hA2 : ((e0 + (len + 1) : ℕ):ℤ)^2 - ((e0:ℕ):ℤ)^2
                = (((e0 + len : ℕ):ℤ)^2 - ((e0:ℕ):ℤ)^2) + ((2*(e0 + len) + 1 : ℕ):ℤ) := by
              rw [hA]
            omega
          rw [if_neg hno]

theorem scaleFold_apply_in (factor : ℕ → ℂ) (e0 len : ℕ) (base : ℤ) (g : ℤ → ℂ)
    (el : ℕ) (j : ℤ) (hel : e0 ≤ el ∧ el < e0 + len)
    (hj : (el:ℤ)^2 - (e0:ℤ)^2 ≤ j ∧ j < ((el:ℤ) + 1)^2 - (e0:ℤ)^2) :
    (scaleFold factor e0 len base (0, g)).2 (base + j) = g (base + j) * factor el := by
  rw [scaleFold_eq]
  dsimp only
  have he2 : (e0:ℤ)^2 ≤ (el:ℤ)^2 :=
    pow_le_pow_left₀ (by positivity) (by exact_mod_cast hel.1) 2
  have hup : ((el:ℤ) + 1)^2 ≤ ((e0 + len : ℕ):ℤ)^2 := by
    have : ((el + 1 : ℕ):ℤ) ≤ ((e0 + len : ℕ):ℤ) := by push_cast; omega
    have h := pow_le_pow_left₀ (by positivity : (0:ℤ) ≤ ((el + 1 : ℕ):ℤ)) this 2
    push_cast at h ⊢
    linarith
  have hin : base ≤ base + j ∧ base + j < base + (((e0 + len : ℕ):ℤ)^2 - ((e0:ℕ):ℤ)^2) := by
    constructor
    · linarith [hj.1]
    · linarith [hj.2]
  rw [if_pos hin, show base + j - base = j from by ring,
    degOf_eq e0 el j hel.1 hj.1 hj.2]

theorem scaleFold_apply_out (factor : ℕ → ℂ) (e0 len : ℕ) (base : ℤ) (g : ℤ → ℂ)
    (x : ℤ) (hx : x < base ∨ base + (((e0 + len : ℕ):ℤ)^2 - ((e0:ℕ):ℤ)^2) ≤ x) :
    (scaleFold factor e0 len base (0, g)).2 x = g x := by
  rw [scaleFold_eq]
  dsimp only
  rw [if_neg]
  rintro ⟨h1, h2⟩
  rcases hx with h | h
  · linarith
  · linarith

/-- Reindexing of a sum over an integer interval of `n` points as a sum over
`Finset.range n`. -/
theorem sum_intIcc_eq_range (a : ℤ) (n : ℕ) (G : ℤ → ℂ) :
    ∑ m ∈ Finset.Icc a (a + n - 1), G m = ∑ k ∈ Finset.range n, G (a + k) := by
  induction n with
  | zero => simp
  | succ n ih =>
      have hset : Finset.Icc a (a + (n + 1 : ℕ) - 1) = insert (a + n) (Finset.Icc a (a + n - 1)) := by
        ext x
        simp only [Finset.mem_Icc, Finset.mem_insert]
        omega
      rw [hset, Finset.sum_insert (by simp), Finset.sum_range_succ, ih]
      ring

theorem lmiList_eq (L : ℕ) : lmiList L = intRange 1 ((L : ℤ)^2) := by
  induction L with
  | zero =>
      have h : ((0:ℤ)^2 + 1 - 1).toNat = 0 := by norm_num
      simp [lmiList, intRange, h, intRangeN]
  | succ L ih =>
      have hrange : List.range (L + 1) = List.range L ++ [L] := by rw [List.range_succ]
      have hstep : (intRange (-(L : ℤ)) L).map (lmIndex L)
          = intRangeN (1 + ((L^2 : ℕ) : ℤ)) (2*L + 1) := by
        rw [intRange_eq (-(L : ℤ)) L (2*L + 1) (by push_cast; ring)]
        simp only [intRangeN, List.map_map]
        refine List.map_congr_left fun k _ => ?_
        simp only [Function.comp_apply, lmIndex]
        push_cast
        ring
      rw [lmiList, hrange, List.flatMap_append]
      have hL : (List.range L).flatMap (fun l => (intRange (-(l : ℤ)) l).map (lmIndex l))
          = intRange 1 ((L : ℤ)^2) := ih
      rw [hL]
      simp only [List.flatMap_cons, List.flatMap_nil, List.append_nil]
      rw [hstep, intRange_eq 1 ((L:ℤ)^2) (L^2) (by push_cast; ring),
        intRange_eq 1 (((L+1:ℕ) : ℤ)^2) (L^2 + (2*L+1)) (by push_cast; ring),
        intRangeN_append 1 (L^2) (2*L+1)]

section MatlabTheorems

open Complex (I)

theorem fm_val_north (phis : ℤ → ℝ) (L : ℕ) (f : ℤ → ℤ → ℂ) (m t : ℤ)
    (hm : -(L:ℤ) + 1 ≤ m ∧ m ≤ (L:ℤ) - 1) (ht : 0 ≤ t ∧ t ≤ (L:ℤ) - 1) :
    fm phis L f ((L:ℤ) + m, (L:ℤ) + t) = step1sum phis L f m t := by
  refine writeFold_write _ _ _ _ ?_ ?_ _
  · refine ⟨(m, t), mem_loopPairs.mpr ⟨mem_intRange.mpr hm, mem_intRange.mpr ht⟩, ?_⟩
    simp [fmWrite]
  · rintro ⟨m1, t1⟩ hp
    rcases mem_loopPairs.mp hp with ⟨h1, h2⟩
    rw [mem_intRange] at h1 h2
    simp only [fmWrite]
    by_cases hc1 : (((L:ℤ) + m, (L:ℤ) + t) : ℤ × ℤ) = ((L:ℤ) + m1, (L:ℤ) + t1)
    · rw [Prod.mk.injEq] at hc1
      have hmt : m1 = m ∧ t1 = t := by omega
      rw [if_pos (by rw [Prod.mk.injEq]; exact hc1), hmt.1, hmt.2]
      exact Or.inr rfl
    · rw [if_neg hc1]
      have hc2 : ¬ (0 < t1 ∧ (((L:ℤ) + m, (L:ℤ) + t) : ℤ × ℤ) = ((L:ℤ) + m1, (L:ℤ) - t1)) := by
        rintro ⟨hpos, heq⟩
        rw [Prod.mk.injEq] at heq
        omega
      rw [if_neg hc2]
      exact Or.inl rfl

theorem fm_val_south (phis : ℤ → ℝ) (L : ℕ) (f : ℤ → ℤ → ℂ) (m t : ℤ)
    (hm : -(L:ℤ) + 1 ≤ m ∧ m ≤ (L:ℤ) - 1) (ht : 1 ≤ t ∧ t ≤ (L:ℤ) - 1) :
    fm phis L f ((L:ℤ) + m, (L:ℤ) - t) = (-1 : ℂ)^m * step1sum phis L f m t := by
  refine writeFold_write _ _ _ _ ?_ ?_ _
  · refine ⟨(m, t), mem_loopPairs.mpr ⟨mem_intRange.mpr hm, mem_intRange.mpr ⟨by omega, ht.2⟩⟩, ?_⟩
    have hc1 : ¬ ((((L:ℤ) + m, (L:ℤ) - t) : ℤ × ℤ) = ((L:ℤ) + m, (L:ℤ) + t)) := by
      rw [Prod.mk.injEq]
      omega
    simp only [fmWrite, if_neg hc1]
    have ht0 : 0 < t := by omega
    simp [ht0]
  · rintro ⟨m1, t1⟩ hp
    rcases mem_loopPairs.mp hp with ⟨h1, h2⟩
    rw [mem_intRange] at h1 h2
    simp only [fmWrite]
    by_cases hc1 : (((L:ℤ) + m, (L:ℤ) - t) : ℤ × ℤ) = ((L:ℤ) + m1, (L:ℤ) + t1)
    · rw [Prod.mk.injEq] at hc1
      omega
    · rw [if_neg hc1]
      by_cases hc2 : 0 < t1 ∧ (((L:ℤ) + m, (L:ℤ) - t) : ℤ × ℤ) = ((L:ℤ) + m1, (L:ℤ) - t1)
      · rcases hc2 with ⟨hpos, heq⟩
        rw [Prod.mk.injEq] at heq
        have hmt : m1 = m ∧ t1 = t := by omega
        rw [if_pos ⟨hpos, by rw [Prod.mk.injEq]; constructor <;> omega⟩, hmt.1, hmt.2]
        exact Or.inr rfl
      · rw [if_neg hc2]
        exact Or.inl rfl

/-- C7: steps 1 and 2 of the fast forward transform. For every order
`m ∈ [-(L-1), L-1]` and colatitude index `t ∈ [0, L-1]`, the stored coefficient
`fm(L+m, L+t)` is the discrete Fourier sum of the `phi`-slice at `m` over all
`2L-1` longitude samples, divided by `2L-1`; and for `t ≥ 1` the reflected
entry satisfies `fm(L+m, L-t) = (-1)^m * fm(L+m, L+t)`, produced purely by the
indexing step 2 with no further computation on samples. -/
theorem C7_azimuthal_analysis (phis : ℤ → ℝ) (L : ℕ) (f : ℤ → ℤ → ℂ) (m t : ℤ)
    (hm : -(L:ℤ) + 1 ≤ m ∧ m ≤ (L:ℤ) - 1) (ht : 0 ≤ t ∧ t ≤ (L:ℤ) - 1) :
    fm phis L f ((L:ℤ) + m, (L:ℤ) + t)
      = (∑ p ∈ Finset.Icc (1 : ℤ) (2*(L:ℤ) - 1),
          f (t + 1) p * Complex.exp (-I * (m : ℂ) * ((phis p : ℝ) : ℂ))) / (2*(L:ℂ) - 1)
    ∧ (1 ≤ t →
        fm phis L f ((L:ℤ) + m, (L:ℤ) - t) = (-1 : ℂ)^m * fm phis L f ((L:ℤ) + m, (L:ℤ) + t)) := by
  constructor
  · rw [fm_val_north phis L f m t hm ht]
    rfl
  · intro ht1
    rw [fm_val_south phis L f m t hm ⟨ht1, ht.2⟩, fm_val_north phis L f m t hm ht]

/-- Witness for C7 at `L = 2`, `m = 0`, `t = 1`, concrete inputs. -/
theorem C7_azimuthal_analysis_witness :
    fm (fun _ => 0) 2 (fun _ _ => 1) (((2:ℕ):ℤ) + 0, ((2:ℕ):ℤ) + 1)
      = (∑ p ∈ Finset.Icc (1 : ℤ) (2*((2:ℕ):ℤ) - 1),
          (fun _ _ => (1:ℂ)) (1 + 1) p *
            Complex.exp (-I * ((0:ℤ) : ℂ) * (((fun _ => (0:ℝ)) p : ℝ) : ℂ))) / (2*((2:ℕ):ℂ) - 1)
    ∧ ((1:ℤ) ≤ 1 →
        fm (fun _ => 0) 2 (fun _ _ => 1) (((2:ℕ):ℤ) + 0, ((2:ℕ):ℤ) - 1)
          = (-1 : ℂ)^(0:ℤ) * fm (fun _ => 0) 2 (fun _ _ => 1) (((2:ℕ):ℤ) + 0, ((2:ℕ):ℤ) + 1)) :=
  C7_azimuthal_analysis (fun _ => 0) 2 (fun _ _ => 1) 0 1 (by norm_num) (by norm_num)

theorem gmm_val (thetas phis : ℤ → ℝ) (L : ℕ) (f : ℤ → ℤ → ℂ) (m mp : ℤ)
    (hm : -(L:ℤ) + 1 ≤ m ∧ m ≤ (L:ℤ) - 1) (hmp : -(L:ℤ) + 1 ≤ mp ∧ mp ≤ (L:ℤ) - 1) :
    gmm thetas phis L f ((L:ℤ) + m, (L:ℤ) + mp) = step4sum thetas phis L f m mp := by
  refine writeFold_write _ _ _ _ ?_ ?_ _
  · refine ⟨(m, mp), mem_loopPairs.mpr ⟨mem_intRange.mpr hm, mem_intRange.mpr hmp⟩, ?_⟩
    simp [gmmWrite]
  · rintro ⟨m1, mp1⟩ hp
    rcases mem_loopPairs.mp hp with ⟨h1, h2⟩
    rw [mem_intRange] at h1 h2
    simp only [gmmWrite]
    by_cases hc1 : (((L:ℤ) + m, (L:ℤ) + mp) : ℤ × ℤ) = ((L:ℤ) + m1, (L:ℤ) + mp1)
    · rw [Prod.mk.injEq] at hc1
      have hmt : m1 = m ∧ mp1 = mp := by omega
      rw [if_pos (by rw [Prod.mk.injEq]; exact hc1), hmt.1, hmt.2]
      exact Or.inr rfl
    · rw [if_neg hc1]
      exact Or.inl rfl

/-- C3: in step 4 of the fast forward transform, the deconvolution weight
applied to `fmm` at order difference `d = m'' - m'` equals `2*pi` times:
`i*pi*d/2` when `|d| = 1`, `2/(1-d^2)` when `d` is even, and `0` when `d` is
odd with `|d| ≠ 1`; and `gmm(m, m')` is exactly the sum over `m''` of
`fmm(m, m'')` times this weight. -/
theorem C3_step4_deconvolution (thetas phis : ℤ → ℝ) (L : ℕ) (f : ℤ → ℤ → ℂ) (m mp : ℤ)
    (hm : -(L:ℤ) + 1 ≤ m ∧ m ≤ (L:ℤ) - 1) (hmp : -(L:ℤ) + 1 ≤ mp ∧ mp ≤ (L:ℤ) - 1) :
    gmm thetas phis L f ((L:ℤ) + m, (L:ℤ) + mp)
      = (∑ mpp ∈ Finset.Icc (-(L:ℤ) + 1) ((L:ℤ) - 1),
          fmm thetas phis L f ((L:ℤ) + m, (L:ℤ) + mpp) * deconvWeight (mpp - mp))
    ∧ ∀ d : ℤ,
        (|d| = 1 → deconvWeight d = 2*(Real.pi:ℂ) * (I * (Real.pi:ℂ) * (d:ℂ) / 2))
        ∧ (d % 2 = 0 → deconvWeight d = 2*(Real.pi:ℂ) * (2 / (1 - (d:ℂ)^2)))
        ∧ (d % 2 = 1 ∧ |d| ≠ 1 → deconvWeight d = 0) := by
  constructor
  · rw [gmm_val thetas phis L f m mp hm hmp, step4sum, Finset.sum_mul, Finset.sum_mul]
    refine Finset.sum_congr rfl fun mpp _ => ?_
    rw [deconvWeight]
    ring
  · intro d
    refine ⟨?_, ?_, ?_⟩
    · intro h
      rw [deconvWeight, wRaw, if_pos h]
      ring
    · intro h
      have habs : ¬ |d| = 1 := by
        intro hc
        rcases (abs_eq (by norm_num : (0:ℤ) ≤ 1)).mp hc with rfl | rfl <;> omega
      rw [deconvWeight, wRaw, if_neg habs, if_pos h]
    · rintro ⟨h1, h2⟩
      rw [deconvWeight, wRaw, if_neg h2, if_neg (by omega : ¬ d % 2 = 0)]
      ring

/-- Witness for C3 at `L = 1`, `m = m' = 0`, concrete inputs. -/
theorem C3_step4_deconvolution_witness :
    gmm (fun _ => 0) (fun _ => 0) 1 (fun _ _ => 0) (((1:ℕ):ℤ) + 0, ((1:ℕ):ℤ) + 0)
      = (∑ mpp ∈ Finset.Icc (-((1:ℕ):ℤ) + 1) (((1:ℕ):ℤ) - 1),
          fmm (fun _ => 0) (fun _ => 0) 1 (fun _ _ => 0) (((1:ℕ):ℤ) + 0, ((1:ℕ):ℤ) + mpp) *
            deconvWeight (mpp - 0))
    ∧ ∀ d : ℤ,
        (|d| = 1 → deconvWeight d = 2*(Real.pi:ℂ) * (I * (Real.pi:ℂ) * (d:ℂ) / 2))
        ∧ (d % 2 = 0 → deconvWeight d = 2*(Real.pi:ℂ) * (2 / (1 - (d:ℂ)^2)))
        ∧ (d % 2 = 1 ∧ |d| ≠ 1 → deconvWeight d = 0) :=
  C3_step4_deconvolution (fun _ => 0) (fun _ => 0) 1 (fun _ _ => 0) 0 0 (by norm_num) (by norm_num)

theorem deconvWeight_one : deconvWeight 1 = ((Real.pi^2 : ℝ) : ℂ) * I := by
  rw [deconvWeight, wRaw, if_pos (by norm_num : |(1:ℤ)| = 1)]
  push_cast
  ring

theorem deconvWeight_neg_one : deconvWeight (-1) = -(((Real.pi^2 : ℝ) : ℂ) * I) := by
  rw [deconvWeight, wRaw, if_pos (by norm_num : |(-1:ℤ)| = 1)]
  push_cast
  ring

/-- Counterexample to C4 as stated: the step 4 weight function is not symmetric
under `d → -d`; at `d = 1` it changes sign. -/
theorem C4_counterexample : deconvWeight 1 ≠ deconvWeight (-1) := by
  rw [deconvWeight_one, deconvWeight_neg_one]
  intro h
  have hne : ((Real.pi^2 : ℝ) : ℂ) * I ≠ 0 := by
    refine mul_ne_zero ?_ Complex.I_ne_zero
    simp only [ne_eq, Complex.ofReal_eq_zero]
    positivity
  have h0 : (2:ℂ) * (((Real.pi^2 : ℝ) : ℂ) * I) = 0 := by
    rw [two_mul]
    nth_rewrite 1 [h]
    ring
  rcases mul_eq_zero.mp h0 with hc | hc
  · norm_num at hc
  · exact hne hc

theorem deconvWeight_even_val (d : ℤ) (h : d % 2 = 0) :
    deconvWeight d = ((4*Real.pi / (1 - (d:ℝ)^2) : ℝ) : ℂ) := by
  have habs : ¬ |d| = 1 := by
    intro hc
    rcases (abs_eq (by norm_num : (0:ℤ) ≤ 1)).mp hc with rfl | rfl <;> omega
  rw [deconvWeight, wRaw, if_neg habs, if_pos h]
  push_cast
  ring

theorem deconvWeight_even_denom (d : ℤ) (h : d % 2 = 0) : 1 - (d:ℝ)^2 ≠ 0 := by
  obtain ⟨e, rfl⟩ : ∃ e, d = 2*e := ⟨d / 2, by omega⟩
  intro hc
  push_cast at hc
  have h2 : (1 : ℤ) = 4*e^2 := by
    have h1 : ((1 : ℤ) : ℝ) = ((4*e^2 : ℤ) : ℝ) := by push_cast; linear_combination hc
    exact Int.cast_injective h1
  have h3 : (4:ℤ) ∣ 1 := ⟨e^2, h2⟩
  norm_num at h3

/-- C4 (amended): the step 4 weight function is symmetric under `d → -d` for
every `d` with `|d| ≠ 1` and antisymmetric at `|d| = 1`; it is purely imaginary
(zero real part with nonzero imaginary content) exactly at `|d| = 1`; and it
vanishes at every odd `d` with `|d| ≠ 1`. -/
theorem C4_kernel_props (d : ℤ) :
    (|d| ≠ 1 → deconvWeight (-d) = deconvWeight d)
    ∧ (|d| = 1 → deconvWeight (-d) = -deconvWeight d)
    ∧ (((deconvWeight d).re = 0 ∧ deconvWeight d ≠ 0) ↔ |d| = 1)
    ∧ (d % 2 = 1 ∧ |d| ≠ 1 → deconvWeight d = 0) := by
  have hodd : ∀ e : ℤ, e % 2 = 1 → ¬ |e| = 1 → deconvWeight e = 0 := by
    intro e h1 h2
    rw [deconvWeight, wRaw, if_neg h2, if_neg (by omega : ¬ e % 2 = 0)]
    ring
  refine ⟨?_, ?_, ?_, fun h => hodd d h.1 h.2⟩
  · intro habs
    rcases Int.emod_two_eq_zero_or_one d with he | ho
    · rw [deconvWeight_even_val d he, deconvWeight_even_val (-d) (by omega)]
      have : 4*Real.pi / (1 - ((-d : ℤ):ℝ)^2) = 4*Real.pi / (1 - ((d : ℤ):ℝ)^2) := by
        push_cast
        ring_nf
      rw [this]
    · have habsneg : ¬ |(-d)| = 1 := by rwa [abs_neg]
      rw [hodd d ho habs, hodd (-d) (by omega) habsneg]
  · intro habs
    rcases (abs_eq (by norm_num : (0:ℤ) ≤ 1)).mp habs with rfl | rfl
    · rw [show -(1:ℤ) = (-1 : ℤ) from rfl, deconvWeight_neg_one, deconvWeight_one]
    · rw [neg_neg, deconvWeight_one, deconvWeight_neg_one]
      ring
  · constructor
    · rintro ⟨hre, hne⟩
      by_contra habs
      rcases Int.emod_two_eq_zero_or_one d with he | ho
      · have hval := deconvWeight_even_val d he
        rw [hval] at hre
        have hden := deconvWeight_even_denom d he
        have hnum : 4*Real.pi / (1 - (d:ℝ)^2) ≠ 0 := by
          refine div_ne_zero ?_ hden
          have := Real.pi_ne_zero
          positivity
        rw [Complex.ofReal_re] at hre
        exact hnum hre
      · exact hne (hodd d ho habs)
    · intro habs
      have hd0 : (d:ℝ) ≠ 0 := by
        intro hc
        have hz : d = 0 := by exact_mod_cast hc
        rw [hz] at habs
        norm_num at habs
      have hval : deconvWeight d = ((Real.pi^2 * (d:ℝ) : ℝ) : ℂ) * I := by
        rw [deconvWeight, wRaw, if_pos habs]
        push_cast
        ring
      constructor
      · rw [hval, Complex.mul_re, Complex.I_re, Complex.I_im, Complex.ofReal_re, Complex.ofReal_im]
        ring
      · rw [hval]
        refine mul_ne_zero ?_ Complex.I_ne_zero
        simp only [ne_eq, Complex.ofReal_eq_zero]
        intro hc
        rcases mul_eq_zero.mp hc with hc1 | hc1
        · exact Real.pi_ne_zero ((pow_eq_zero_iff (by norm_num)).mp hc1)
        · exact hd0 hc1

/-- Witness for the amended C4 at `d = 3` (odd, `|d| ≠ 1`) and `d = 2` (even). -/
theorem C4_kernel_props_witness :
    deconvWeight (-3) = deconvWeight 3 ∧ deconvWeight 3 = 0 ∧ deconvWeight (-2) = deconvWeight 2 :=
  ⟨(C4_kernel_props 3).1 (by norm_num),
   (C4_kernel_props 3).2.2.2 ⟨by norm_num, by norm_num⟩,
   (C4_kernel_props 2).1 (by norm_num)⟩

theorem thetasExtList_length (thetas : ℤ → ℝ) (L : ℕ) (hL : 1 ≤ L) :
    (thetasExtList thetas L).length = 2*L - 1 := by
  simp only [thetasExtList, List.length_append, List.length_map, List.length_range]
  omega

theorem lmIndex_bounds (L l : ℕ) (m : ℤ) (hl : l < L) (hm : -(l:ℤ) ≤ m ∧ m ≤ l) :
    1 ≤ lmIndex l m ∧ lmIndex l m ≤ (L:ℤ)^2 := by
  have h1 : (0:ℤ) ≤ (l:ℤ)^2 := sq_nonneg _
  have h2 : ((l:ℤ) + 1)^2 ≤ (L:ℤ)^2 := by
    have hle : (l:ℤ) + 1 ≤ (L:ℤ) := by exact_mod_cast hl
    have hnn : (0:ℤ) ≤ (l:ℤ) + 1 := by positivity
    exact pow_le_pow_left₀ hnn hle 2
  have h3 : ((l:ℤ) + 1)^2 = (l:ℤ)^2 + 2*(l:ℤ) + 1 := by ring
  rw [lmIndex]
  constructor <;> linarith [hm.1, hm.2]

/-- C10: under the stated size preconditions, every array access performed by
`forward_for_dft` and `inverse_direct` is within bounds: all matrix indices lie
in `1..2L-1`, the extended colatitude array has exactly `2L-1` entries, sample
reads and grid writes stay inside the `L x (2L-1)` grid, and the output
coefficient index ranges over exactly `1..L^2`. -/
theorem C10_index_safety (thetas : ℤ → ℝ) (L : ℕ) (m t p textt mp mpp : ℤ) (l : ℕ)
    (mq j k : ℤ) (hL : 1 ≤ L)
    (hm : -(L:ℤ) + 1 ≤ m ∧ m ≤ (L:ℤ) - 1) (ht : 0 ≤ t ∧ t ≤ (L:ℤ) - 1)
    (hp : 1 ≤ p ∧ p ≤ 2*(L:ℤ) - 1) (htextt : 0 ≤ textt ∧ textt ≤ 2*(L:ℤ) - 2)
    (hmp : -(L:ℤ) + 1 ≤ mp ∧ mp ≤ (L:ℤ) - 1) (hmpp : -(L:ℤ) + 1 ≤ mpp ∧ mpp ≤ (L:ℤ) - 1)
    (hl : l < L) (hmq : -(l:ℤ) ≤ mq ∧ mq ≤ l)
    (hj : 1 ≤ j ∧ j ≤ (L:ℤ)) (hk : 1 ≤ k ∧ k ≤ 2*(L:ℤ) - 1) :
    C10Prop thetas L m t p textt mp mpp l mq j k := by
  have hlen := thetasExtList_length thetas L hL
  have hlmi := lmIndex_bounds L l mq hl hmq
  have hlL : (l:ℤ) ≤ (L:ℤ) - 1 := by exact_mod_cast Nat.le_sub_one_of_lt hl
  refine ⟨?_, ?_, ?_, ?_, ?_, hlen, ?_, ?_, ?_, ?_, ?_, hlmi, ?_, lmiList_eq L⟩
  · exact ⟨by omega, by omega, by omega, by omega⟩
  · exact ⟨by omega, by omega, by omega, by omega⟩
  · intro ht1
    exact ⟨by omega, by omega, by omega, by omega⟩
  · exact ⟨by omega, by omega, by omega, by omega⟩
  · omega
  · exact ⟨by omega, by omega, by omega, by omega⟩
  · exact ⟨by omega, by omega, by omega, by omega⟩
  · exact ⟨by omega, by omega, by omega, by omega⟩
  · exact ⟨by omega, by omega, by omega, by omega⟩
  · exact ⟨by omega, by omega, by omega, by omega⟩
  · exact ⟨by omega, by omega, by omega, by omega⟩

/-- Witness for C10 at `L = 2` with concrete in-range indices. -/
theorem C10_index_safety_witness : C10Prop (fun _ => 0) 2 0 1 1 2 0 0 1 0 1 1 :=
  C10_index_safety (fun _ => 0) 2 0 1 1 2 0 0 1 0 1 1 (by norm_num) (by norm_num)
    (by norm_num) (by norm_num) (by norm_num) (by norm_num) (by norm_num) (by norm_num)
    (by norm_num) (by norm_num) (by norm_num)

section InverseDirectSpec

open Complex (I)

theorem inversePoint_partial
    (ssht_dl : (ℤ → ℤ → ℝ) → ℕ → ℕ → ℝ → (ℤ → ℤ → ℝ)) (flm : ℤ → ℂ) (L : ℕ) (θ φ : ℝ) :
    ∀ J : ℕ,
      (List.range J).foldl (invPointBody ssht_dl flm L θ φ) (0, 1, fun _ _ => 0)
        = (∑ l ∈ Finset.range J, ∑ m ∈ Finset.Icc (-(l:ℤ)) (l:ℤ),
              invVal flm L (dlAt ssht_dl L θ l) l φ (lmIndex l m) m,
            (J:ℤ)^2 + 1, dlState ssht_dl L θ J) := by
  intro J
  induction J with
  | zero =>
      simp only [List.range_zero, List.foldl_nil, Finset.range_zero, Finset.sum_empty,
        Nat.cast_zero, dlState]
      norm_num
  | succ J ih =>
      rw [List.range_succ, List.foldl_append, ih]
      simp only [List.foldl_cons, List.foldl_nil, invPointBody]
      rw [intRange_eq (-(J:ℤ)) ((J:ℤ)) (2*J + 1) (by push_cast; ring)]
      rw [foldl_sum_counter]
      have hIcc : Finset.Icc (-(J:ℤ)) ((J:ℤ))
          = Finset.Icc (-(J:ℤ)) (-(J:ℤ) + ((2*J + 1 : ℕ) : ℤ) - 1) := by
        congr 1
        push_cast
        ring
      dsimp only
      rw [Prod.mk.injEq, Prod.mk.injEq]
      refine ⟨?_, ?_, ?_⟩
      · conv_rhs => rw [Finset.sum_range_succ]
        congr 1
        rw [hIcc, sum_intIcc_eq_range]
        refine Finset.sum_congr rfl fun k _ => ?_
        rw [show lmIndex J (-(J:ℤ) + (k:ℤ)) = (J:ℤ)^2 + 1 + (k:ℤ) from by rw [lmIndex]; ring]
        rfl
      · push_cast
        ring
      · rfl

/-- C2: for a grid point `(theta_j, phi_k)` of the `L x (2L-1)` sphere grid,
`inverse_direct` returns the sum over `l = 0..L-1` and `m = -l..l` of
`flm(l,m) * sqrt((2l+1)/(4*pi)) * dl(l; m, 0)(theta_j) * exp(i*m*phi_k)`, where
the Wigner-d matrix for degree `l` is obtained by advancing the recursion from
degree 0 up to `l` (`dlAt`), independently for every grid point, and
`dl(l; m, 0)` is the 1-based entry `(m+L, L)`. The coefficient `flm(l,m)` is
read at the unrolled position `lmIndex l m = l^2+l+m+1`. -/
theorem C2_inverse_direct_spec (thetas phis : ℤ → ℝ)
    (ssht_dl : (ℤ → ℤ → ℝ) → ℕ → ℕ → ℝ → (ℤ → ℤ → ℝ)) (L : ℕ) (flm : ℤ → ℂ)
    (j k : ℤ) (hj : 1 ≤ j ∧ j ≤ (L:ℤ)) (hk : 1 ≤ k ∧ k ≤ 2*(L:ℤ) - 1) :
    inverse_direct thetas phis ssht_dl L flm j k
      = ∑ l ∈ Finset.range L, ∑ m ∈ Finset.Icc (-(l:ℤ)) (l:ℤ),
          flm (lmIndex l m) * ((Real.sqrt ((2*(l:ℝ) + 1) / (4*Real.pi)) : ℝ) : ℂ) *
            ((dlAt ssht_dl L (thetas j) l (m + L) (L:ℤ) : ℝ) : ℂ) *
            Complex.exp (I * (m : ℂ) * ((phis k : ℝ) : ℂ)) := by
  rw [inverse_direct]
  rw [if_pos ⟨hj.1, hj.2, hk.1, hk.2⟩]
  rw [inversePoint, inversePoint_partial]
  dsimp only
  simp only [invVal]

/-- Witness for C2 at `L = 1`, grid point `(1, 1)`, concrete inputs. -/
theorem C2_inverse_direct_spec_witness :
    inverse_direct (fun _ => 0) (fun _ => 0) (fun _ _ _ _ => fun _ _ => 0) 1 (fun _ => 1) 1 1
      = ∑ l ∈ Finset.range 1, ∑ m ∈ Finset.Icc (-(l:ℤ)) (l:ℤ),
          (fun _ => (1:ℂ)) (lmIndex l m) *
            ((Real.sqrt ((2*(l:ℝ) + 1) / (4*Real.pi)) : ℝ) : ℂ) *
            ((dlAt (fun _ _ _ _ => fun _ _ => 0) 1 ((fun _ => (0:ℝ)) 1) l (m + 1) ((1:ℕ):ℤ) : ℝ) : ℂ) *
            Complex.exp (I * (m : ℂ) * (((fun _ => (0:ℝ)) 1 : ℝ) : ℂ)) :=
  C2_inverse_direct_spec (fun _ => 0) (fun _ => 0) (fun _ _ _ _ => fun _ _ => 0) 1 (fun _ => 1)
    1 1 (by norm_num) (by norm_num)

end InverseDirectSpec

end MatlabTheorems

theorem so3MexSize_dvd3 (L N : ℤ) : (3:ℤ) ∣ (2*N - 1)*(3*L*L - N*(N-1)) := by
  apply (ZMod.intCast_zmod_eq_zero_iff_dvd ((2*N - 1)*(3*L*L - N*(N-1))) 3).mp
  push_cast
  have hall : ∀ x l : ZMod 3, (2*x - 1)*(3*l*l - x*(x-1)) = 0 := by decide
  exact hall (N : ZMod 3) (L : ZMod 3)

theorem so3MexSize_dvd6 (L N : ℤ) : (6:ℤ) ∣ N*(6*L*L - (N-1)*(2*N-1)) := by
  apply (ZMod.intCast_zmod_eq_zero_iff_dvd (N*(6*L*L - (N-1)*(2*N-1))) 6).mp
  push_cast
  have hall : ∀ x l : ZMod 6, x*(6*l*l - (x-1)*(2*x-1)) = 0 := by decide
  exact hall (N : ZMod 6) (L : ZMod 6)

/-- C9: for positive `L` and `N` the four storage sizes of the public interface
equal exactly, as integers with exact division: `(2N-1)*L^2` (padded complex),
`N*L^2` (padded real), `(2N-1)*(3L^2-N(N-1))/3` (compact complex, the product
being divisible by 3), and `N*(6L^2-(N-1)(2N-1))/6` (compact real, the product
being divisible by 6). -/
theorem C9_storage_sizes (L N : ℤ) (hL : 1 ≤ L) (hN : 1 ≤ N) :
    so3MexFlmnSize L N false false = (2*N - 1)*L^2
    ∧ so3MexFlmnSize L N false true = N*L^2
    ∧ (so3MexFlmnSize L N true false * 3 = (2*N - 1)*(3*L^2 - N*(N-1))
        ∧ (3:ℤ) ∣ (2*N - 1)*(3*L^2 - N*(N-1)))
    ∧ (so3MexFlmnSize L N true true * 6 = N*(6*L^2 - (N-1)*(2*N-1))
        ∧ (6:ℤ) ∣ N*(6*L^2 - (N-1)*(2*N-1))) := by
  have h3 := so3MexSize_dvd3 L N
  have h6 := so3MexSize_dvd6 L N
  have hLL : L*L = L^2 := by ring
  refine ⟨?_, ?_, ⟨?_, ?_⟩, ⟨?_, ?_⟩⟩
  · simp only [so3MexFlmnSize]
    norm_num
    ring
  · simp only [so3MexFlmnSize]
    norm_num
    ring
  · simp only [so3MexFlmnSize]
    norm_num
    rw [Int.ediv_mul_cancel h3]
    ring
  · have heq : (2*N - 1)*(3*L^2 - N*(N-1)) = (2*N - 1)*(3*L*L - N*(N-1)) := by ring
    rw [heq]
    exact h3
  · simp only [so3MexFlmnSize]
    norm_num
    rw [Int.ediv_mul_cancel h6]
    ring
  · have heq : N*(6*L^2 - (N-1)*(2*N-1)) = N*(6*L*L - (N-1)*(2*N-1)) := by ring
    rw [heq]
    exact h6

/-- Witness for C9 at `L = 2`, `N = 2`. -/
theorem C9_storage_sizes_witness :
    so3MexFlmnSize 2 2 false false = (2*2 - 1)*2^2
    ∧ so3MexFlmnSize 2 2 false true = 2*2^2
    ∧ (so3MexFlmnSize 2 2 true false * 3 = (2*2 - 1)*(3*2^2 - 2*(2-1))
        ∧ (3:ℤ) ∣ (2*2 - 1)*(3*2^2 - 2*(2-1)))
    ∧ (so3MexFlmnSize 2 2 true true * 6 = 2*(6*2^2 - (2-1)*(2*2-1))
        ∧ (6:ℤ) ∣ 2*(6*2^2 - (2-1)*(2*2-1))) :=
  C9_storage_sizes 2 2 (by norm_num) (by norm_num)

section So3Theorems

open Complex (I)

theorem so3Compact_not_padded {s : ℤ} (h : so3CompactStorage s = true) :
    so3PaddedStorage s = false := by
  simp only [so3CompactStorage, Bool.or_eq_true, beq_iff_eq, SO3_STORE_ZERO_FIRST_COMPACT,
    SO3_STORE_NEG_FIRST_COMPACT] at h
  simp only [so3PaddedStorage, SO3_STORE_ZERO_FIRST_PAD, SO3_STORE_NEG_FIRST_PAD,
    Bool.or_eq_false_iff, beq_eq_false_iff_ne, ne_eq]
  omega

theorem so3Compact_valid {s : ℤ} (h : so3CompactStorage s = true) :
    so3ValidStorage s = true := by
  simp only [so3CompactStorage, Bool.or_eq_true, beq_iff_eq] at h
  simp only [so3ValidStorage, decide_eq_true_eq]
  tauto

theorem so3off_inj (N : ℕ) (n1 n2 : ℤ)
    (h1 : -(N:ℤ) + 1 ≤ n1 ∧ n1 ≤ (N:ℤ) - 1) (h2 : -(N:ℤ) + 1 ≤ n2 ∧ n2 ≤ (N:ℤ) - 1)
    (hne : n1 ≠ n2) : so3off N n1 ≠ so3off N n2 := by
  simp only [so3off]
  split_ifs <;> omega

theorem sum_intIco_split (F : ℤ → ℤ) {a b c : ℤ} (hab : a ≤ b) (hbc : b ≤ c) :
    ∑ k ∈ Finset.Ico a c, F k
      = (∑ k ∈ Finset.Ico a b, F k) + ∑ k ∈ Finset.Ico b c, F k := by
  rw [← Finset.Ico_union_Ico_eq_Ico hab hbc,
    Finset.sum_union (Finset.Ico_disjoint_Ico_consecutive a b c)]

theorem elmn2ind_compact (l : ℕ) (m n : ℤ) (L N : ℕ) (storage : ℤ)
    (hst : so3CompactStorage storage = true) :
    so3_sampling_elmn2ind l m n L N storage
      = so3CompactBlockStart n L N storage + ((l:ℤ)^2 + (l:ℤ) + m - n^2) := by
  have hna : ((n.natAbs : ℤ))^2 = n^2 := Int.natAbs_pow_two n
  simp only [so3CompactStorage, Bool.or_eq_true, beq_iff_eq] at hst
  rcases hst with h | h
  all_goals
    subst h
    simp only [so3CompactBlockStart, so3_sampling_elmn2ind, SO3_STORE_ZERO_FIRST_PAD,
      SO3_STORE_NEG_FIRST_PAD, SO3_STORE_ZERO_FIRST_COMPACT, SO3_STORE_NEG_FIRST_COMPACT]
    norm_num
    try rw [hna]
    try ring

theorem so3InvExtract_val (flmn : ℤ → ℂ) (L N : ℕ) (storage : ℤ)
    (hst : so3CompactStorage storage = true) (n : ℤ) (l : ℕ) (m : ℤ)
    (hl : l < L) (hm : -(l:ℤ) ≤ m ∧ m ≤ l) :
    so3InvExtract flmn L N storage n ((l:ℤ)^2 + (l:ℤ) + m)
      = if n.natAbs ≤ l then flmn (so3_sampling_elmn2ind l m n L N storage) else 0 := by
  have hpad := so3Compact_not_padded hst
  have hl2 : (0:ℤ) ≤ (l:ℤ)^2 := sq_nonneg _
  have hsq : ((l:ℤ) + 1)^2 = (l:ℤ)^2 + 2*(l:ℤ) + 1 := by ring
  have hLsq : ((l:ℤ) + 1)^2 ≤ (L:ℤ)^2 := by
    have hle : (l:ℤ) + 1 ≤ (L:ℤ) := by exact_mod_cast hl
    exact pow_le_pow_left₀ (by positivity) hle 2
  rw [so3InvExtract, if_neg (by rw [hpad]; simp)]
  by_cases hcase : n.natAbs ≤ l
  · have hle : ((n.natAbs : ℕ) : ℤ) ≤ (l:ℤ) := by exact_mod_cast hcase
    have hn2 : n^2 ≤ (l:ℤ)^2 := by
      rw [← Int.natAbs_pow_two n]
      exact pow_le_pow_left₀ (by positivity) hle 2
    rw [if_neg (by intro hc; linarith [hc.2, hm.1]),
      if_pos ⟨by linarith [hm.1], by linarith [hm.2]⟩, if_pos hcase,
      elmn2ind_compact l m n L N storage hst]
  · have hlt : ((l + 1 : ℕ) : ℤ) ≤ ((n.natAbs : ℕ) : ℤ) := by
      have : l + 1 ≤ n.natAbs := by omega
      exact_mod_cast this
    have hn2 : ((l:ℤ) + 1)^2 ≤ n^2 := by
      rw [← Int.natAbs_pow_two n]
      have h := pow_le_pow_left₀ (by positivity : (0:ℤ) ≤ ((l + 1 : ℕ) : ℤ)) hlt 2
      push_cast at h ⊢
      linarith
    rw [if_pos ⟨by linarith [hm.1], by linarith [hm.2]⟩, if_neg hcase]

theorem so3InvScaled_val (flmn : ℤ → ℂ) (L N : ℕ) (storage : ℤ) (n : ℤ)
    (l : ℕ) (m : ℤ) (hl : l < L) (hm : -(l:ℤ) ≤ m ∧ m ≤ l) :
    so3InvScaled flmn L N storage n ((l:ℤ)^2 + (l:ℤ) + m)
      = so3InvExtract flmn L N storage n ((l:ℤ)^2 + (l:ℤ) + m) *
          ((Real.sqrt ((2*(l:ℝ) + 1) / (16 * Real.pi^3)) : ℝ) : ℂ) := by
  have hsq : ((l:ℤ) + 1)^2 = (l:ℤ)^2 + 2*(l:ℤ) + 1 := by ring
  have h := scaleFold_apply_in
    (fun el => ((Real.sqrt ((2*(el:ℝ) + 1) / (16 * Real.pi^3)) : ℝ) : ℂ)) 0 L 0
    (so3InvExtract flmn L N storage n) l ((l:ℤ)^2 + (l:ℤ) + m)
    ⟨Nat.zero_le l, by omega⟩
    ⟨by push_cast; linarith [hm.1], by push_cast; linarith [hm.2]⟩
  rw [so3InvScaled]
  rw [zero_add] at h
  exact h

theorem foldl_none_absorb {α : Type}
    (step : (List So3Event × Option α) → ℤ → (List So3Event × Option α))
    (hstep : ∀ tr n, step (tr, none) n = (tr, none)) :
    ∀ (l : List ℤ) (tr : List So3Event), l.foldl step (tr, none) = (tr, none) := by
  intro l
  induction l with
  | nil => intro tr; rfl
  | cons n t ih =>
      intro tr
      rw [List.foldl_cons, hstep]
      exact ih tr

theorem intRange_cons (a b : ℤ) (h : a ≤ b) : intRange a b = a :: intRange (a + 1) b := by
  obtain ⟨k, hk⟩ : ∃ k : ℕ, (b + 1 - a).toNat = k + 1 := ⟨(b - a).toNat, by omega⟩
  rw [intRange, intRange, hk, show (b + 1 - (a + 1)).toNat = k from by omega]
  simp only [intRangeN, List.range_succ_eq_map, List.map_cons, List.map_map]
  congr 1
  · norm_num
  · refine List.map_congr_left fun i _ => ?_
    simp only [Function.comp_apply]
    push_cast
    ring

theorem so3InvLoop_valid (sshtInverse : (ℤ → ℂ) → ℕ → ℤ → (ℤ → ℂ)) (flmn : ℤ → ℂ)
    (L N : ℕ) (storage : ℤ) (hval : so3ValidStorage storage = true) :
    so3InvLoop sshtInverse flmn L N storage
      = ([So3Event.allocFn, So3Event.allocFlm],
         some (so3InvFnArr sshtInverse flmn L N storage)) := by
  rw [so3InvLoop, so3InvFnArr]
  have key : ∀ (l : List ℤ) (tr : List So3Event) (g : ℤ → ℂ),
      l.foldl
        (fun st n =>
          match st.2 with
          | none => st
          | some arr =>
              if so3ValidStorage storage then
                (st.1, some (fun x => (so3InvW sshtInverse flmn L N storage n x).getD (arr x)))
              else (st.1 ++ [So3Event.errorInvalidStorage], none))
        (tr, some g)
      = (tr, some (writeFold (so3InvW sshtInverse flmn L N storage) l g)) := by
    intro l
    induction l with
    | nil => intro tr g; rfl
    | cons n t ih =>
        intro tr g
        rw [List.foldl_cons, writeFold_cons]
        dsimp only
        rw [if_pos hval]
        exact ih tr _
  exact key _ _ _

theorem so3FwdLoop_valid (sshtForward : (ℤ → ℂ) → ℕ → ℤ → (ℤ → ℂ)) (f flmn0 : ℤ → ℂ)
    (L N : ℕ) (storage : ℤ) (hval : so3ValidStorage storage = true) :
    so3FwdLoop sshtForward f flmn0 L N storage
      = ([So3Event.allocFtemp, So3Event.allocFn] ++
          (if so3CompactStorage storage then [So3Event.allocFlm] else []),
         some ((intRange (-(N:ℤ) + 1) ((N:ℤ) - 1)).foldl
           (fun arr n => so3FwdBody sshtForward f L N storage n arr) flmn0)) := by
  rw [so3FwdLoop]
  have key : ∀ (l : List ℤ) (tr : List So3Event) (g : ℤ → ℂ),
      l.foldl
        (fun st n =>
          match st.2 with
          | none => st
          | some arr =>
              if so3ValidStorage storage then
                (st.1, some (so3FwdBody sshtForward f L N storage n arr))
              else (st.1 ++ [So3Event.errorInvalidStorage], none))
        (tr, some g)
      = (tr, some (l.foldl (fun arr n => so3FwdBody sshtForward f L N storage n arr) g)) := by
    intro l
    induction l with
    | nil => intro tr g; rfl
    | cons n t ih =>
        intro tr g
        rw [List.foldl_cons, List.foldl_cons]
        dsimp only
        rw [if_pos hval]
        exact ih tr _
  exact key _ _ _

theorem so3InvFnArr_slice (sshtInverse : (ℤ → ℂ) → ℕ → ℤ → (ℤ → ℂ)) (flmn : ℤ → ℂ)
    (L N : ℕ) (storage : ℤ) (hL : 1 ≤ L)
    (n : ℤ) (hn : -(N:ℤ) + 1 ≤ n ∧ n ≤ (N:ℤ) - 1)
    (j : ℤ) (hj : 0 ≤ j ∧ j < fn_n_stride L) :
    so3InvFnArr sshtInverse flmn L N storage (so3off N n * fn_n_stride L + j)
      = so3InvSlice sshtInverse flmn L N storage n j := by
  have hs0 : 0 ≤ fn_n_stride L := by
    rw [fn_n_stride]
    have h1 : (1:ℤ) ≤ (L:ℤ) := by exact_mod_cast hL
    nlinarith
  have hexp : ∀ o : ℤ, (o + 1) * fn_n_stride L = o * fn_n_stride L + fn_n_stride L := by
    intro o
    ring
  refine writeFold_write _ _ _ _ ?_ ?_ _
  · refine ⟨n, mem_intRange.mpr hn, ?_⟩
    simp only [so3InvW]
    rw [if_pos ⟨by linarith [hj.1], by rw [hexp]; linarith [hj.2]⟩]
    rfl
  · intro n1 hn1
    rw [mem_intRange] at hn1
    by_cases he : n1 = n
    · subst he
      right
      simp only [so3InvW]
      rw [if_pos ⟨by linarith [hj.1], by rw [hexp]; linarith [hj.2]⟩]
      rw [show so3off N n1 * fn_n_stride L + j - so3off N n1 * fn_n_stride L = j from by ring]
    · left
      simp only [so3InvW]
      rw [if_neg]
      rintro ⟨ha, hb⟩
      have hoff := so3off_inj N n1 n hn1 hn he
      rcases lt_or_gt_of_ne hoff with hlt | hgt
      · have h1 : so3off N n1 + 1 ≤ so3off N n := by omega
        have h2 : (so3off N n1 + 1) * fn_n_stride L ≤ so3off N n * fn_n_stride L :=
          mul_le_mul_of_nonneg_right (by exact_mod_cast h1) hs0
        linarith [hj.1]
      · have h1 : so3off N n + 1 ≤ so3off N n1 := by omega
        have h2 : (so3off N n + 1) * fn_n_stride L ≤ so3off N n1 * fn_n_stride L :=
          mul_le_mul_of_nonneg_right (by exact_mod_cast h1) hs0
        rw [hexp] at h2
        linarith [hj.2]

/-- C5: for every orientation frequency `n` in `-N+1..N-1`, the inverse
transform processes the `n`-slice as follows. Under compact storage the local
`flm` buffer holds, at unrolled position `l^2+l+m`, the input coefficient at
the layout index of `(l, m, n)` when `l ≥ |n|` and zero when `l < |n|` (the
copy of exactly the `L^2-n^2` coefficients with `l ≥ |n|` into positions `n^2`
onward, the leading `n^2` entries zero-filled); each degree-`l` entry is then
multiplied by `sqrt((2l+1)/(16*pi^3))`; the slice values are the
spherical-harmonic inverse engine applied with pole order `-n`, negated when
`n` is odd, stored at orientation row `n` for `n ≥ 0` and `n + 2N - 1` for
`n < 0`; and after all slices the output is a single backward Fourier
transform of length `2N-1` across the orientation dimension of the assembled
`fn` buffer. -/
theorem C5_inverse_slices (sshtInverse : (ℤ → ℂ) → ℕ → ℤ → (ℤ → ℂ)) (flmn : ℤ → ℂ)
    (L N : ℕ) (storage : ℤ) (n : ℤ)
    (hL : 1 ≤ L) (hst : so3CompactStorage storage = true)
    (hn : -(N:ℤ) + 1 ≤ n ∧ n ≤ (N:ℤ) - 1) :
    (∀ (l : ℕ) (m : ℤ), l < L → -(l:ℤ) ≤ m ∧ m ≤ l →
        so3InvExtract flmn L N storage n ((l:ℤ)^2 + (l:ℤ) + m)
          = if n.natAbs ≤ l then flmn (so3_sampling_elmn2ind l m n L N storage) else 0)
    ∧ (∀ (l : ℕ) (m : ℤ), l < L → -(l:ℤ) ≤ m ∧ m ≤ l →
        so3InvScaled flmn L N storage n ((l:ℤ)^2 + (l:ℤ) + m)
          = so3InvExtract flmn L N storage n ((l:ℤ)^2 + (l:ℤ) + m) *
              ((Real.sqrt ((2*(l:ℝ) + 1) / (16 * Real.pi^3)) : ℝ) : ℂ))
    ∧ (∀ j : ℤ, 0 ≤ j ∧ j < fn_n_stride L →
        so3InvFnArr sshtInverse flmn L N storage (so3off N n * fn_n_stride L + j)
          = (if n % 2 = 0 then 1 else -1) *
              sshtInverse (so3InvScaled flmn L N storage n) L (-n) j)
    ∧ so3_core_mw_inverse_via_ssht sshtInverse flmn L N storage
        = ([So3Event.allocFn, So3Event.allocFlm],
           dftBackward N (fn_n_stride L) (so3InvFnArr sshtInverse flmn L N storage)) := by
  refine ⟨?_, ?_, ?_, ?_⟩
  · intro l m hl hm
    exact so3InvExtract_val flmn L N storage hst n l m hl hm
  · intro l m hl hm
    exact so3InvScaled_val flmn L N storage n l m hl hm
  · intro j hj
    rw [so3InvFnArr_slice sshtInverse flmn L N storage hL n hn j hj]
    rfl
  · rw [so3_core_mw_inverse_via_ssht,
      so3InvLoop_valid sshtInverse flmn L N storage (so3Compact_valid hst)]

/-- Witness for C5 at `L = N = 1`, neg-first compact storage, `n = 0`, with
concrete zero inputs and a zero inverse engine. -/
theorem C5_inverse_slices_witness :
    (∀ (l : ℕ) (m : ℤ), l < 1 → -(l:ℤ) ≤ m ∧ m ≤ l →
        so3InvExtract (fun _ => 0) 1 1 SO3_STORE_NEG_FIRST_COMPACT 0 ((l:ℤ)^2 + (l:ℤ) + m)
          = if (0:ℤ).natAbs ≤ l then (0:ℂ) else 0)
    ∧ (∀ (l : ℕ) (m : ℤ), l < 1 → -(l:ℤ) ≤ m ∧ m ≤ l →
        so3InvScaled (fun _ => 0) 1 1 SO3_STORE_NEG_FIRST_COMPACT 0 ((l:ℤ)^2 + (l:ℤ) + m)
          = so3InvExtract (fun _ => 0) 1 1 SO3_STORE_NEG_FIRST_COMPACT 0 ((l:ℤ)^2 + (l:ℤ) + m) *
              ((Real.sqrt ((2*(l:ℝ) + 1) / (16 * Real.pi^3)) : ℝ) : ℂ))
    ∧ (∀ j : ℤ, 0 ≤ j ∧ j < fn_n_stride 1 →
        so3InvFnArr (fun _ _ _ => fun _ => 0) (fun _ => 0) 1 1 SO3_STORE_NEG_FIRST_COMPACT
            (so3off 1 0 * fn_n_stride 1 + j)
          = (if (0:ℤ) % 2 = 0 then 1 else -1) * (0:ℂ))
    ∧ so3_core_mw_inverse_via_ssht (fun _ _ _ => fun _ => 0) (fun _ => 0) 1 1
          SO3_STORE_NEG_FIRST_COMPACT
        = ([So3Event.allocFn, So3Event.allocFlm],
           dftBackward 1 (fn_n_stride 1)
             (so3InvFnArr (fun _ _ _ => fun _ => 0) (fun _ => 0) 1 1
               SO3_STORE_NEG_FIRST_COMPACT)) :=
  C5_inverse_slices (fun _ _ _ => fun _ => 0) (fun _ => 0) 1 1 SO3_STORE_NEG_FIRST_COMPACT 0
    (by norm_num) (by decide) (by norm_num)

/-- Counterexample to C8 as stated: with the unsupported storage tag 99 (and
`L = N = 1`, zero inputs), the inverse core does report the fatal
configuration error, but it does not occur before the transient buffers are
allocated: the allocations of `fn` and `flm` precede it in the trace. -/
theorem C8_counterexample :
    (so3_core_mw_inverse_via_ssht (fun _ _ _ => fun _ => 0) (fun _ => 0) 1 1 99).1.contains
        So3Event.errorInvalidStorage = true
    ∧ failsBeforeAlloc
        (so3_core_mw_inverse_via_ssht (fun _ _ _ => fun _ => 0) (fun _ => 0) 1 1 99).1
      = false := by
  constructor <;> decide

/-- C8 (amended): for every storage tag outside the four supported layouts,
both cores report the fatal configuration error on the first orientation
slice, but only after their transient buffers have been allocated: the trace
of the inverse is exactly alloc `fn`, alloc `flm`, error (allocations at lines
72 and 90, error inside the loop at line 112); the trace of the forward is
exactly alloc `ftemp`, alloc `fn`, error (allocations at lines 182 and 186,
error at line 248; `flm` is not allocated on this path since line 212 guards
it with a compact-storage test). -/
theorem C8_invalid_storage (sshtInverse sshtForward : (ℤ → ℂ) → ℕ → ℤ → (ℤ → ℂ))
    (flmn f flmn0 : ℤ → ℂ) (L N : ℕ) (storage : ℤ)
    (hN : 1 ≤ N) (hst : so3ValidStorage storage = false) :
    (so3_core_mw_inverse_via_ssht sshtInverse flmn L N storage).1
        = [So3Event.allocFn, So3Event.allocFlm, So3Event.errorInvalidStorage]
    ∧ (so3_core_mw_forward_via_ssht sshtForward flmn0 f L N storage).1
        = [So3Event.allocFtemp, So3Event.allocFn, So3Event.errorInvalidStorage] := by
  have hne : -(N:ℤ) + 1 ≤ (N:ℤ) - 1 := by
    have h1 : (1:ℤ) ≤ (N:ℤ) := by exact_mod_cast hN
    linarith
  have hcons := intRange_cons (-(N:ℤ) + 1) ((N:ℤ) - 1) hne
  constructor
  · rw [so3_core_mw_inverse_via_ssht, so3InvLoop, hcons, List.foldl_cons]
    dsimp only
    rw [if_neg (by rw [hst]; simp)]
    rw [foldl_none_absorb _ (fun tr n => rfl)]
    rfl
  · have hcomp : so3CompactStorage storage = false := by
      cases hcs : so3CompactStorage storage
      · rfl
      · rw [so3Compact_valid hcs] at hst
        simp at hst
    rw [so3_core_mw_forward_via_ssht, so3FwdLoop, hcomp, hcons, List.foldl_cons]
    dsimp only
    rw [if_neg (by rw [hst]; simp)]
    rw [foldl_none_absorb _ (fun tr n => rfl)]
    rfl

theorem block_el_exists (e0 Lb : ℕ) (j : ℤ) (hj : 0 ≤ j ∧ j < (Lb:ℤ)^2 - (e0:ℤ)^2) :
    ∃ el : ℕ, (e0 ≤ el ∧ el < Lb) ∧
      ((el:ℤ)^2 - (e0:ℤ)^2 ≤ j ∧ j < ((el:ℤ) + 1)^2 - (e0:ℤ)^2) := by
  set mm := j.toNat + e0^2 with hmm
  have hc : ((mm : ℕ) : ℤ) = j + (e0:ℤ)^2 := by
    rw [hmm]
    push_cast
    rw [Int.toNat_of_nonneg hj.1]
  have hmLb : mm < Lb^2 := by
    have h1 : ((mm : ℕ) : ℤ) < ((Lb^2 : ℕ) : ℤ) := by
      rw [hc]
      push_cast
      linarith [hj.2]
    exact_mod_cast h1
  refine ⟨Nat.sqrt mm,
    ⟨Nat.le_sqrt'.mpr (by rw [hmm]; exact Nat.le_add_left _ _), Nat.sqrt_lt'.mpr hmLb⟩, ?_, ?_⟩
  · have h1 : Nat.sqrt mm ^ 2 ≤ mm := Nat.sqrt_le' mm
    have h2 : (((Nat.sqrt mm)^2 : ℕ) : ℤ) ≤ ((mm : ℕ) : ℤ) := by exact_mod_cast h1
    rw [hc] at h2
    push_cast at h2
    linarith
  · have h1 : mm < (Nat.sqrt mm).succ ^ 2 := Nat.lt_succ_sqrt' mm
    have h2 : ((mm : ℕ) : ℤ) < (((Nat.sqrt mm).succ ^ 2 : ℕ) : ℤ) := by exact_mod_cast h1
    rw [hc] at h2
    push_cast at h2
    linarith

theorem blockStart_NC (n : ℤ) (L N : ℕ) :
    so3CompactBlockStart n L N SO3_STORE_NEG_FIRST_COMPACT
      = ∑ k ∈ Finset.Ico (-(N:ℤ) + 1) n, ((L:ℤ)^2 - k^2) := by
  simp only [so3CompactBlockStart, so3_sampling_elmn2ind, SO3_STORE_ZERO_FIRST_PAD,
    SO3_STORE_NEG_FIRST_PAD, SO3_STORE_ZERO_FIRST_COMPACT, SO3_STORE_NEG_FIRST_COMPACT]
  norm_num
  try rw [Int.natAbs_pow_two]
  try ring

theorem blockStart_ZC (n : ℤ) (L N : ℕ) :
    so3CompactBlockStart n L N SO3_STORE_ZERO_FIRST_COMPACT
      = (if 0 ≤ n then ∑ k ∈ Finset.Ico (0:ℤ) n, ((L:ℤ)^2 - k^2)
         else (∑ k ∈ Finset.Ico (0:ℤ) ((N:ℕ):ℤ), ((L:ℤ)^2 - k^2))
                + ∑ k ∈ Finset.Ico (-(N:ℤ) + 1) n, ((L:ℤ)^2 - k^2)) := by
  simp only [so3CompactBlockStart, so3_sampling_elmn2ind, SO3_STORE_ZERO_FIRST_PAD,
    SO3_STORE_NEG_FIRST_PAD, SO3_STORE_ZERO_FIRST_COMPACT, SO3_STORE_NEG_FIRST_COMPACT]
  norm_num
  try rw [Int.natAbs_pow_two]
  try ring

theorem so3BlockSize_nonneg (L N : ℕ) (hNL : N ≤ L) (k : ℤ)
    (hk : -(N:ℤ) + 1 ≤ k ∧ k ≤ (N:ℤ) - 1) : 0 ≤ (L:ℤ)^2 - k^2 := by
  have hL : (N:ℤ) ≤ (L:ℤ) := by exact_mod_cast hNL
  have h1 : k^2 ≤ (L:ℤ)^2 := sq_le_sq' (by linarith [hk.1]) (by linarith [hk.2])
  linarith

theorem blockSum_step (L N : ℕ) (hNL : N ≤ L) (a n1 n2 : ℤ)
    (ha : a ≤ n1) (h12 : n1 < n2) (hb : n2 ≤ (N:ℤ)) (hlow : -(N:ℤ) + 1 ≤ a) :
    (∑ k ∈ Finset.Ico a n1, ((L:ℤ)^2 - k^2)) + ((L:ℤ)^2 - n1^2)
      ≤ ∑ k ∈ Finset.Ico a n2, ((L:ℤ)^2 - k^2) := by
  have hsplit : ∑ k ∈ Finset.Ico a n2, ((L:ℤ)^2 - k^2)
      = (∑ k ∈ Finset.Ico a n1, ((L:ℤ)^2 - k^2)) + ∑ k ∈ Finset.Ico n1 n2, ((L:ℤ)^2 - k^2) :=
    sum_intIco_split _ ha (le_of_lt h12)
  rw [hsplit]
  have hsingle : (L:ℤ)^2 - n1^2 ≤ ∑ k ∈ Finset.Ico n1 n2, ((L:ℤ)^2 - k^2) := by
    have hmem : n1 ∈ Finset.Ico n1 n2 := Finset.mem_Ico.mpr ⟨le_refl n1, h12⟩
    have hnn : ∀ k ∈ Finset.Ico n1 n2, (0:ℤ) ≤ (L:ℤ)^2 - k^2 := by
      intro k hk
      rw [Finset.mem_Ico] at hk
      exact so3BlockSize_nonneg L N hNL k ⟨by linarith [hk.1], by linarith [hk.2]⟩
    exact Finset.single_le_sum hnn hmem
  linarith

theorem compact_block_mono (L N : ℕ) (hNL : N ≤ L) (storage : ℤ)
    (hst : so3CompactStorage storage = true)
    (n1 n2 : ℤ) (h1 : -(N:ℤ) + 1 ≤ n1 ∧ n1 ≤ (N:ℤ) - 1)
    (h2 : -(N:ℤ) + 1 ≤ n2 ∧ n2 ≤ (N:ℤ) - 1) (hne : n1 ≠ n2) :
    so3CompactBlockStart n1 L N storage + ((L:ℤ)^2 - n1^2)
        ≤ so3CompactBlockStart n2 L N storage
    ∨ so3CompactBlockStart n2 L N storage + ((L:ℤ)^2 - n2^2)
        ≤ so3CompactBlockStart n1 L N storage := by
  have hN1 : (1:ℤ) ≤ (N:ℤ) := by linarith [h1.1, h1.2]
  have hZC : ∀ a b : ℤ, -(N:ℤ) + 1 ≤ a → a ≤ (N:ℤ) - 1 → -(N:ℤ) + 1 ≤ b → b ≤ (N:ℤ) - 1 →
      a < b →
      so3CompactBlockStart a L N SO3_STORE_ZERO_FIRST_COMPACT + ((L:ℤ)^2 - a^2)
        ≤ so3CompactBlockStart b L N SO3_STORE_ZERO_FIRST_COMPACT
      ∨ so3CompactBlockStart b L N SO3_STORE_ZERO_FIRST_COMPACT + ((L:ℤ)^2 - b^2)
        ≤ so3CompactBlockStart a L N SO3_STORE_ZERO_FIRST_COMPACT := by
    intro a b hal hau hbl hbu hab
    rw [blockStart_ZC, blockStart_ZC]
    rcases le_or_lt 0 a with hsa | hsa
    · rcases le_or_lt 0 b with hsb | hsb
      · left
        rw [if_pos hsa, if_pos hsb]
        exact blockSum_step L N hNL 0 a b hsa hab (by linarith) (by linarith)
      · left
        rw [if_pos hsa, if_neg (by linarith)]
        have hstep := blockSum_step L N hNL 0 a ((N:ℕ):ℤ) hsa (by linarith) (le_refl _)
          (by linarith)
        have hnn : (0:ℤ) ≤ ∑ k ∈ Finset.Ico (-(N:ℤ) + 1) b, ((L:ℤ)^2 - k^2) := by
          refine Finset.sum_nonneg fun k hk => ?_
          rw [Finset.mem_Ico] at hk
          exact so3BlockSize_nonneg L N hNL k ⟨hk.1, by linarith [hk.2]⟩
        linarith
    · rcases le_or_lt 0 b with hsb | hsb
      · right
        rw [if_pos hsb, if_neg (by linarith)]
        have hstep := blockSum_step L N hNL 0 b ((N:ℕ):ℤ) hsb (by linarith) (le_refl _)
          (by linarith)
        have hnn : (0:ℤ) ≤ ∑ k ∈ Finset.Ico (-(N:ℤ) + 1) a, ((L:ℤ)^2 - k^2) := by
          refine Finset.sum_nonneg fun k hk => ?_
          rw [Finset.mem_Ico] at hk
          exact so3BlockSize_nonneg L N hNL k ⟨hk.1, by linarith [hk.2]⟩
        linarith
      · left
        rw [if_neg (by linarith), if_neg (by linarith)]
        have hstep := blockSum_step L N hNL (-(N:ℤ) + 1) a b hal hab (by linarith) (le_refl _)
        linarith
  rcases hne.lt_or_lt with hlt | hlt
  all_goals
    simp only [so3CompactStorage, Bool.or_eq_true, beq_iff_eq] at hst
  · rcases hst with h | h
    · subst h
      exact hZC n1 n2 h1.1 h1.2 h2.1 h2.2 hlt
    · subst h
      left
      rw [blockStart_NC, blockStart_NC]
      exact blockSum_step L N hNL (-(N:ℤ) + 1) n1 n2 h1.1 hlt (by linarith [h2.2]) (le_refl _)
  · rcases hst with h | h
    · subst h
      rcases hZC n2 n1 h2.1 h2.2 h1.1 h1.2 hlt with hc | hc
      · right
        exact hc
      · left
        exact hc
    · subst h
      right
      rw [blockStart_NC, blockStart_NC]
      exact blockSum_step L N hNL (-(N:ℤ) + 1) n2 n1 h2.1 hlt (by linarith [h1.2]) (le_refl _)

theorem so3FwdBody_compact_ext (sshtForward : (ℤ → ℂ) → ℕ → ℤ → (ℤ → ℂ)) (f : ℤ → ℂ)
    (L N : ℕ) (storage : ℤ) (hst : so3CompactStorage storage = true) (hNL : N ≤ L)
    (n : ℤ) (hn : -(N:ℤ) + 1 ≤ n ∧ n ≤ (N:ℤ) - 1) (arr : ℤ → ℂ) (x : ℤ) :
    so3FwdBody sshtForward f L N storage n arr x
      = (so3FwdW sshtForward f L N storage n x).getD (arr x) := by
  have hpad := so3Compact_not_padded hst
  have habs : n.natAbs ≤ L := by omega
  have hsum : n.natAbs + (L - n.natAbs) = L := by omega
  have hcast : ((n.natAbs + (L - n.natAbs) : ℕ) : ℤ) = (L:ℤ) := by rw [hsum]
  have hna : ((n.natAbs : ℤ))^2 = n^2 := Int.natAbs_pow_two n
  rw [so3FwdW]
  by_cases hin : so3CompactBlockStart n L N storage ≤ x ∧
      x < so3CompactBlockStart n L N storage + ((L:ℤ)^2 - n^2)
  · rw [if_pos hin, Option.getD_some]
    rw [so3FwdBody, so3FwdBody, if_neg (by rw [hpad]; simp), if_neg (by rw [hpad]; simp)]
    obtain ⟨el, ⟨hel0, helL⟩, hjb⟩ := block_el_exists n.natAbs L
      (x - so3CompactBlockStart n L N storage)
      ⟨by linarith [hin.1], by rw [hna]; linarith [hin.2]⟩
    have helL2 : el < n.natAbs + (L - n.natAbs) := by omega
    have hx : so3CompactBlockStart n L N storage +
        (x - so3CompactBlockStart n L N storage) = x := by ring
    have hval1 := scaleFold_apply_in
      (fun el => so3sign n * ((Real.sqrt (4*Real.pi / (2*(el:ℝ) + 1)) : ℝ) : ℂ))
      n.natAbs (L - n.natAbs) (so3CompactBlockStart n L N storage)
      (fun y =>
        if so3CompactBlockStart n L N storage ≤ y ∧
            y < so3CompactBlockStart n L N storage + ((L:ℤ)^2 - n^2) then
          so3FwdRaw sshtForward f L N n (n^2 + (y - so3CompactBlockStart n L N storage))
        else arr y)
      el (x - so3CompactBlockStart n L N storage) ⟨hel0, helL2⟩ hjb
    have hval2 := scaleFold_apply_in
      (fun el => so3sign n * ((Real.sqrt (4*Real.pi / (2*(el:ℝ) + 1)) : ℝ) : ℂ))
      n.natAbs (L - n.natAbs) (so3CompactBlockStart n L N storage)
      (fun y =>
        if so3CompactBlockStart n L N storage ≤ y ∧
            y < so3CompactBlockStart n L N storage + ((L:ℤ)^2 - n^2) then
          so3FwdRaw sshtForward f L N n (n^2 + (y - so3CompactBlockStart n L N storage))
        else (fun _ => (0:ℂ)) y)
      el (x - so3CompactBlockStart n L N storage) ⟨hel0, helL2⟩ hjb
    rw [hx] at hval1 hval2
    rw [hval1, hval2]
    dsimp only
    rw [if_pos hin, if_pos hin]
  · rw [if_neg hin, Option.getD_none]
    rw [so3FwdBody, if_neg (by rw [hpad]; simp)]
    have hbound : so3CompactBlockStart n L N storage +
        ((((n.natAbs + (L - n.natAbs) : ℕ)):ℤ)^2 - ((n.natAbs:ℕ):ℤ)^2)
        = so3CompactBlockStart n L N storage + ((L:ℤ)^2 - n^2) := by
      rw [hcast, hna]
    have hside : x < so3CompactBlockStart n L N storage ∨
        so3CompactBlockStart n L N storage +
          ((((n.natAbs + (L - n.natAbs) : ℕ)):ℤ)^2 - ((n.natAbs:ℕ):ℤ)^2) ≤ x := by
      rw [hbound]
      rcases not_and_or.mp hin with h | h
      · left
        linarith [not_le.mp h]
      · right
        linarith [not_lt.mp h]
    rw [scaleFold_apply_out _ _ _ _ _ x hside]
    rw [if_neg hin]

theorem foldl_bodies_writeFold (body : ℤ → (ℤ → ℂ) → (ℤ → ℂ)) (w : ℤ → ℤ → Option ℂ) :
    ∀ l : List ℤ, (∀ n ∈ l, ∀ arr x, body n arr x = (w n x).getD (arr x)) →
      ∀ g : ℤ → ℂ, l.foldl (fun arr n => body n arr) g = writeFold w l g := by
  intro l
  induction l with
  | nil => intro _ g; rfl
  | cons n t ih =>
      intro hext g
      rw [List.foldl_cons, writeFold_cons]
      have hbody : body n g = fun x => (w n x).getD (g x) := by
        funext x
        exact hext n (List.mem_cons_self _ _) g x
      rw [hbody]
      exact ih (fun n2 hn2 => hext n2 (List.mem_cons_of_mem _ hn2)) _

theorem so3FwdBody_val (sshtForward : (ℤ → ℂ) → ℕ → ℤ → (ℤ → ℂ)) (f : ℤ → ℂ)
    (L N : ℕ) (storage : ℤ) (hst : so3CompactStorage storage = true) (hNL : N ≤ L)
    (n : ℤ) (l : ℕ) (m : ℤ) (hnl : n.natAbs ≤ l) (hl : l < L)
    (hm : -(l:ℤ) ≤ m ∧ m ≤ l) :
    so3FwdBody sshtForward f L N storage n (fun _ => 0)
        (so3_sampling_elmn2ind l m n L N storage)
      = so3sign n * ((Real.sqrt (4*Real.pi / (2*(l:ℝ) + 1)) : ℝ) : ℂ) *
          so3FwdRaw sshtForward f L N n ((l:ℤ)^2 + (l:ℤ) + m) := by
  have hpad := so3Compact_not_padded hst
  have hna : ((n.natAbs : ℤ))^2 = n^2 := Int.natAbs_pow_two n
  have hnal : ((n.natAbs : ℕ) : ℤ) ≤ (l:ℤ) := by exact_mod_cast hnl
  have hn2l : n^2 ≤ (l:ℤ)^2 := by
    rw [← hna]
    exact pow_le_pow_left₀ (by positivity) hnal 2
  have hsq : ((l:ℤ) + 1)^2 = (l:ℤ)^2 + 2*(l:ℤ) + 1 := by ring
  have hLsq : ((l:ℤ) + 1)^2 ≤ (L:ℤ)^2 := by
    have hle : (l:ℤ) + 1 ≤ (L:ℤ) := by exact_mod_cast hl
    exact pow_le_pow_left₀ (by positivity) hle 2
  rw [elmn2ind_compact l m n L N storage hst]
  rw [so3FwdBody, if_neg (by rw [hpad]; simp)]
  have hjlow : (l:ℤ)^2 - ((n.natAbs:ℕ):ℤ)^2 ≤ (l:ℤ)^2 + (l:ℤ) + m - n^2 := by
    rw [hna]
    linarith [hm.1]
  have hjhigh : (l:ℤ)^2 + (l:ℤ) + m - n^2 < ((l:ℤ) + 1)^2 - ((n.natAbs:ℕ):ℤ)^2 := by
    rw [hna]
    linarith [hm.2]
  have h := scaleFold_apply_in
    (fun el => so3sign n * ((Real.sqrt (4*Real.pi / (2*(el:ℝ) + 1)) : ℝ) : ℂ))
    n.natAbs (L - n.natAbs) (so3CompactBlockStart n L N storage)
    (fun y =>
      if so3CompactBlockStart n L N storage ≤ y ∧
          y < so3CompactBlockStart n L N storage + ((L:ℤ)^2 - n^2) then
        so3FwdRaw sshtForward f L N n (n^2 + (y - so3CompactBlockStart n L N storage))
      else (fun _ => (0:ℂ)) y)
    l ((l:ℤ)^2 + (l:ℤ) + m - n^2) ⟨hnl, by omega⟩ ⟨hjlow, hjhigh⟩
  rw [h]
  dsimp only
  rw [if_pos ⟨by linarith [hm.1], by linarith [hm.2]⟩]
  rw [show n^2 + (so3CompactBlockStart n L N storage + ((l:ℤ)^2 + (l:ℤ) + m - n^2)
      - so3CompactBlockStart n L N storage) = (l:ℤ)^2 + (l:ℤ) + m from by ring]
  ring

/-- C6: the forward transform first Fourier-analyzes the sample grid forward
along the orientation dimension (length `2N-1`, rows permuted so `n < 0` sits
at `n + 2N - 1`) and multiplies every value of the transformed buffer by
`2*pi/(2N-1)` (lines 197–210); for each `n` the raw harmonic coefficients of
slice `n` are the spherical-harmonic forward engine applied with pole order
`-n` to orientation row `so3off N n` of that buffer (lines 226, 240); the
transient allocations are exactly `ftemp` (line 182), `fn` (line 186) and — on
this compact path — the scratch `flm` (lines 212–213), all before the loop;
and under
compact storage the output vector holds, at the layout index of `(l, m, n)`
for every `l >= |n|`, the raw coefficient at `l^2+l+m` multiplied by
`sign(n)*sqrt(4*pi/(2l+1))` with `sign(n) = -1` for odd and `+1` for even `n`
(lines 238–257) — only the `l >= |n|` subrange of each slice is written. -/
theorem C6_forward_slices (sshtForward : (ℤ → ℂ) → ℕ → ℤ → (ℤ → ℂ))
    (flmn0 f : ℤ → ℂ) (L N : ℕ) (storage : ℤ)
    (hNL : N ≤ L) (hst : so3CompactStorage storage = true) :
    (∀ x : ℤ, 0 ≤ x ∧ x < (2*(N:ℤ) - 1) * fn_n_stride L →
        so3FwdFn f L N x
          = dftForward N (fn_n_stride L) f x * (2 * (Real.pi:ℂ) / (2*(N:ℂ) - 1)))
    ∧ (∀ n : ℤ, so3FwdRaw sshtForward f L N n
          = sshtForward (fun j => so3FwdFn f L N (so3off N n * fn_n_stride L + j)) L (-n))
    ∧ (so3_core_mw_forward_via_ssht sshtForward flmn0 f L N storage).1
        = [So3Event.allocFtemp, So3Event.allocFn, So3Event.allocFlm]
    ∧ (∀ (n : ℤ) (l : ℕ) (m : ℤ),
        -(N:ℤ) + 1 ≤ n ∧ n ≤ (N:ℤ) - 1 → n.natAbs ≤ l → l < L → -(l:ℤ) ≤ m ∧ m ≤ l →
        (so3_core_mw_forward_via_ssht sshtForward flmn0 f L N storage).2
            (so3_sampling_elmn2ind l m n L N storage)
          = so3sign n * ((Real.sqrt (4*Real.pi / (2*(l:ℝ) + 1)) : ℝ) : ℂ) *
              so3FwdRaw sshtForward f L N n ((l:ℤ)^2 + (l:ℤ) + m)) := by
  have hloop := so3FwdLoop_valid sshtForward f flmn0 L N storage (so3Compact_valid hst)
  have hfw := foldl_bodies_writeFold (so3FwdBody sshtForward f L N storage)
    (so3FwdW sshtForward f L N storage) (intRange (-(N:ℤ) + 1) ((N:ℤ) - 1))
    (fun n hn arr x => so3FwdBody_compact_ext sshtForward f L N storage hst hNL n
      (mem_intRange.mp hn) arr x) flmn0
  have hcore : so3_core_mw_forward_via_ssht sshtForward flmn0 f L N storage
      = ([So3Event.allocFtemp, So3Event.allocFn, So3Event.allocFlm],
         writeFold (so3FwdW sshtForward f L N storage)
           (intRange (-(N:ℤ) + 1) ((N:ℤ) - 1)) flmn0) := by
    rw [so3_core_mw_forward_via_ssht, hloop, hst, hfw]
    rfl
  refine ⟨?_, ?_, ?_, ?_⟩
  · intro x hx
    rw [so3FwdFn, if_pos hx]
  · intro n
    rfl
  · rw [hcore]
  · intro n l m hn hnl hl hm
    rw [hcore]
    dsimp only
    have hna : ((n.natAbs : ℤ))^2 = n^2 := Int.natAbs_pow_two n
    have hnal : ((n.natAbs : ℕ) : ℤ) ≤ (l:ℤ) := by exact_mod_cast hnl
    have hn2l : n^2 ≤ (l:ℤ)^2 := by
      rw [← hna]
      exact pow_le_pow_left₀ (by positivity) hnal 2
    have hsq : ((l:ℤ) + 1)^2 = (l:ℤ)^2 + 2*(l:ℤ) + 1 := by ring
    have hLsq : ((l:ℤ) + 1)^2 ≤ (L:ℤ)^2 := by
      have hle : (l:ℤ) + 1 ≤ (L:ℤ) := by exact_mod_cast hl
      exact pow_le_pow_left₀ (by positivity) hle 2
    have hxin : so3CompactBlockStart n L N storage ≤ so3_sampling_elmn2ind l m n L N storage ∧
        so3_sampling_elmn2ind l m n L N storage
          < so3CompactBlockStart n L N storage + ((L:ℤ)^2 - n^2) := by
      rw [elmn2ind_compact l m n L N storage hst]
      constructor
      · linarith [hm.1]
      · linarith [hm.2]
    refine writeFold_write _ _ _ _ ?_ ?_ flmn0
    · refine ⟨n, mem_intRange.mpr hn, ?_⟩
      simp only [so3FwdW]
      rw [if_pos hxin]
      rfl
    · intro n2 hn2
      rw [mem_intRange] at hn2
      by_cases he : n2 = n
      · subst he
        right
        simp only [so3FwdW]
        rw [if_pos hxin,
          so3FwdBody_val sshtForward f L N storage hst hNL n2 l m hnl hl hm]
      · left
        simp only [so3FwdW]
        rw [if_neg]
        rintro ⟨ha, hb⟩
        rcases compact_block_mono L N hNL storage hst n2 n hn2 hn he with hc | hc
        · linarith [hxin.1]
        · linarith [hxin.2]

/-- Witness for C6 at `L = N = 1`, neg-first compact storage, with zero
inputs and a zero forward engine. -/
theorem C6_forward_slices_witness :
    (∀ x : ℤ, 0 ≤ x ∧ x < (2*((1:ℕ):ℤ) - 1) * fn_n_stride 1 →
        so3FwdFn (fun _ => 0) 1 1 x
          = dftForward 1 (fn_n_stride 1) (fun _ => 0) x *
              (2 * (Real.pi:ℂ) / (2*((1:ℕ):ℂ) - 1)))
    ∧ (∀ n : ℤ, so3FwdRaw (fun _ _ _ => fun _ => 0) (fun _ => 0) 1 1 n = fun _ => (0:ℂ))
    ∧ (so3_core_mw_forward_via_ssht (fun _ _ _ => fun _ => 0) (fun _ => 0) (fun _ => 0) 1 1
          SO3_STORE_NEG_FIRST_COMPACT).1
        = [So3Event.allocFtemp, So3Event.allocFn, So3Event.allocFlm]
    ∧ (∀ (n : ℤ) (l : ℕ) (m : ℤ),
        -((1:ℕ):ℤ) + 1 ≤ n ∧ n ≤ ((1:ℕ):ℤ) - 1 → n.natAbs ≤ l → l < 1 →
          -(l:ℤ) ≤ m ∧ m ≤ l →
        (so3_core_mw_forward_via_ssht (fun _ _ _ => fun _ => 0) (fun _ => 0) (fun _ => 0) 1 1
            SO3_STORE_NEG_FIRST_COMPACT).2
            (so3_sampling_elmn2ind l m n 1 1 SO3_STORE_NEG_FIRST_COMPACT)
          = so3sign n * ((Real.sqrt (4*Real.pi / (2*(l:ℝ) + 1)) : ℝ) : ℂ) *
              so3FwdRaw (fun _ _ _ => fun _ => 0) (fun _ => 0) 1 1 n ((l:ℤ)^2 + (l:ℤ) + m)) :=
  C6_forward_slices (fun _ _ _ => fun _ => 0) (fun _ => 0) (fun _ => 0) 1 1
    SO3_STORE_NEG_FIRST_COMPACT (by norm_num) (by decide)

/-- Witness for the amended C8 at storage tag 99, `L = N = 1`, zero inputs. -/
theorem C8_invalid_storage_witness :
    (so3_core_mw_inverse_via_ssht (fun _ _ _ => fun _ => 0) (fun _ => 0) 1 1 99).1
        = [So3Event.allocFn, So3Event.allocFlm, So3Event.errorInvalidStorage]
    ∧ (so3_core_mw_forward_via_ssht (fun _ _ _ => fun _ => 0) (fun _ => 0) (fun _ => 0) 1 1 99).1
        = [So3Event.allocFtemp, So3Event.allocFn, So3Event.errorInvalidStorage] :=
  C8_invalid_storage (fun _ _ _ => fun _ => 0) (fun _ _ _ => fun _ => 0)
    (fun _ => 0) (fun _ => 0) (fun _ => 0) 1 1 99 (by norm_num) (by decide)

end So3Theorems

end SO3Spec
